import Mathlib

/-!
Verification of the bounded-depth transaction tracer / flow-graph builder
(`eth_track.py` and `xrp_track.py`).

The Python code is shallowly embedded:

* machine floats used for amounts (`float(txn['value']) / 1e18`,
  `float(amount) / 1_000_000`) are modelled as exact rationals `ℚ`; none of
  the verified properties depends on rounding;
* Python `dict`s are modelled as association lists that record the full
  assignment history, newest binding first; `List.lookup` returns the first
  (= most recent) binding exactly like a dict read, and the key set of the
  dict is the set of first components;
* the network is abstracted by a `ledger` oracle mapping an account to the
  full (page-concatenated) transaction list its history endpoint returns;
* Python exceptions are modelled with `Except` / `Option` results;
* the in-place mutation of the `traced` set and the `node_levels` dict is
  modelled by explicit state passing (`TraceState`);
* the bounded recursion of `trace_transactions` is expressed with a fuel
  parameter; fuel `max_depth + 2` at depth `0` is provably enough because
  every recursive call increases `depth` and the `depth > max_depth` guard
  fires before the fuel can run out (`traceF_fuel_congr` below).
-/

namespace CryptoHackTrack

/-- A node-level dictionary: assignment history of `node_levels`, newest
binding first.  `List.lookup` gives the current value of a key. -/
abbrev Levels := List (String × Nat)

/-- Decidable equality of `Except` values, used to evaluate whole crawl
results on concrete fixtures. -/
instance exceptDecEq {ε α : Type} [DecidableEq ε] [DecidableEq α] :
    DecidableEq (Except ε α)
  | Except.error e₁, Except.error e₂ =>
    if h : e₁ = e₂ then isTrue (congrArg Except.error h)
    else isFalse (fun hh => h (Except.error.inj hh))
  | Except.error _, Except.ok _ => isFalse (fun hh => Except.noConfusion hh)
  | Except.ok _, Except.error _ => isFalse (fun hh => Except.noConfusion hh)
  | Except.ok a₁, Except.ok a₂ =>
    if h : a₁ = a₂ then isTrue (congrArg Except.ok h)
    else isFalse (fun hh => h (Except.ok.inj hh))

namespace Eth

/-- One Etherscan transaction record, keeping the fields `eth_track.py`
reads: `hash`, `from` (here `fromAcct`, `from` is a Lean keyword), `to`
(`toAcct`, empty string models a falsy/empty `to` field), `value` (Wei, a
natural number) and `timeStamp` (Unix seconds). -/
structure Txn where
  hash : String
  fromAcct : String
  toAcct : String
  value : Nat
  timeStamp : Nat
deriving DecidableEq, Repr

/-- `float(txn['value']) / 1e18`: Wei-to-Ether conversion, modelled as the
exact rational `v / 10^18` (`mkRat` is the kernel-computable constructor of
that quotient). -/
def weiToEth (v : Nat) : ℚ := mkRat v (10 ^ 18)

/-- The filter of `fetch_all_transactions` (`eth_track.py` line 51):
`start_datetime <= txn_date <= end_datetime and amount > 0.0000`.
Timestamps are compared as Unix seconds, order-isomorphic to the
`datetime` comparison of the source. -/
def txnAccepted (startT endT : Nat) (t : Txn) : Bool :=
  decide (startT ≤ t.timeStamp) && decide (t.timeStamp ≤ endT)
    && decide (0 < weiToEth t.value)

/-- `fetch_all_transactions` (`eth_track.py` lines 40-57): pages are
fetched until exhausted and their records filtered; the `ledger` oracle
stands for the concatenation of all pages Etherscan returns for the
account, so the function is the window/positive-amount filter over it. -/
def fetch_all_transactions (ledger : String → List Txn) (startT endT : Nat)
    (account : String) : List Txn :=
  (ledger account).filter (txnAccepted startT endT)

/-- The mutable state threaded through `trace_transactions`: the `traced`
visited set, the `node_levels` dict (assignment history, newest first) and
an observation log of the accounts for which a page fetch was issued
(instrumentation for the no-re-expansion property; it influences nothing). -/
structure TraceState where
  traced : List String
  node_levels : Levels
  fetchLog : List String
deriving DecidableEq, Repr

/-- The `for txn in transactions:` loop body of `trace_transactions`
(`eth_track.py` lines 71-79).  `next` is the recursive call at
`depth + 1`.  For a transaction whose destination is truthy, untraced and
of positive amount: append it, assign `node_levels[destination] = depth+1`,
then recurse into the destination and extend with its result. -/
def traceLoopF (next : String → TraceState → List Txn × TraceState)
    (depth : Nat) : List Txn → TraceState → List Txn × TraceState
  | [], st => ([], st)
  | txn :: rest, st =>
    if txn.toAcct ≠ "" ∧ txn.toAcct ∉ st.traced ∧ 0 < weiToEth txn.value then
      let st1 : TraceState :=
        { st with node_levels := (txn.toAcct, depth + 1) :: st.node_levels }
      let sub := next txn.toAcct st1
      let more := traceLoopF next depth rest sub.2
      (txn :: (sub.1 ++ more.1), more.2)
    else
      traceLoopF next depth rest st

/-- `trace_transactions` (`eth_track.py` lines 61-81), fuelled.  Guard:
`if depth > max_depth or account in traced: return []`; otherwise the
account is added to `traced`, its pages are fetched (logged in
`fetchLog`), and the filtered transactions are processed by the loop. -/
def traceF (ledger : String → List Txn) (startT endT maxDepth : Nat) :
    Nat → String → Nat → TraceState → List Txn × TraceState
  | 0, _, _, st => ([], st)
  | fuel + 1, account, depth, st =>
    if maxDepth < depth ∨ account ∈ st.traced then ([], st)
    else
      let st1 : TraceState :=
        { st with traced := account :: st.traced,
                  fetchLog := st.fetchLog ++ [account] }
      let txns := fetch_all_transactions ledger startT endT account
      traceLoopF (fun a s => traceF ledger startT endT maxDepth fuel a (depth + 1) s)
        depth txns st1

/-- The initial state of the `__main__` driver:
`node_levels = {initial_account: 0}`, fresh `traced` set. -/
def initState (origin : String) : TraceState :=
  { traced := [], node_levels := [(origin, 0)], fetchLog := [] }

/-- A whole trace as run by the `__main__` driver: start at the origin at
depth `0` with `node_levels = {origin: 0}`.  Fuel `maxDepth + 2` is enough
(see `traceF_fuel_congr`). -/
def trace_transactions (ledger : String → List Txn) (startT endT maxDepth : Nat)
    (origin : String) : List Txn × TraceState :=
  traceF ledger startT endT maxDepth (maxDepth + 2) origin 0 (initState origin)

/-- An actual value transfer `a → b` accepted by the filter: a transaction
on `a`'s own history page whose sender is `a`, with truthy destination `b`
and positive amount.  This is the edge relation of the flow graph the
tracer explores. -/
def transferEdge (ledger : String → List Txn) (startT endT : Nat)
    (a b : String) : Prop :=
  ∃ t, t ∈ fetch_all_transactions ledger startT endT a ∧
    t.fromAcct = a ∧ t.toAcct = b ∧ b ≠ "" ∧ 0 < weiToEth t.value

/-- `reachN n a b`: `b` is reachable from `a` by at most `n` accepted
transfer hops. -/
def reachN (ledger : String → List Txn) (startT endT : Nat) :
    Nat → String → String → Prop
  | 0, a, b => a = b
  | n + 1, a, b =>
    a = b ∨ ∃ c, transferEdge ledger startT endT a c ∧
      reachN ledger startT endT n c b

end Eth

/-! ### The `networkx` directed graph, as far as the scripts use it

`add_edge` inserts both endpoints as nodes (in first-insertion order, like
`networkx`) and sets the edge's `weight` attribute, overwriting the
attribute of an existing `(source, destination)` edge.  `edgeHist` is the
insertion history (newest first); the current attribute of an edge is its
most recent entry.  `subsetHist` likewise records the `subset_key` node
attribute writes. -/

structure Graph where
  edgeHist : List (String × String × ℚ)
  nodes : List String
  subsetHist : List (String × Nat)
deriving DecidableEq, Repr

/-- The empty `nx.DiGraph()`. -/
def Graph.empty : Graph := { edgeHist := [], nodes := [], subsetHist := [] }

/-- Register a node (no-op when present, appended otherwise, matching
`networkx` node insertion order). -/
def addNode (G : Graph) (a : String) : Graph :=
  if a ∈ G.nodes then G else { G with nodes := G.nodes ++ [a] }

/-- `G.add_edge(source, destination, weight=w)`. -/
def addEdge (G : Graph) (s d : String) (w : ℚ) : Graph :=
  let G1 := addNode (addNode G s) d
  { G1 with edgeHist := (s, d, w) :: G1.edgeHist }

/-- The current `weight` attribute of edge `s → d`, `none` when the edge
does not exist. -/
def edgeWeight (G : Graph) (s d : String) : Option ℚ :=
  (G.edgeHist.find? (fun e => s == e.1 && d == e.2.1)).map (fun e => e.2.2)

namespace Eth

/-- One iteration of the `for txn in transactions:` loop of `build_graph`
(`eth_track.py` lines 86-95): insert the edge, default an unseen source to
level `0` in `node_levels` itself, then read both endpoint levels for the
`subset_key` attributes.  A missing destination level is a Python
`KeyError`, modelled as `none`. -/
def buildStep (acc : Graph × Levels) (txn : Txn) : Option (Graph × Levels) :=
  let s := txn.fromAcct
  let d := txn.toAcct
  let G1 := addEdge acc.1 s d (weiToEth txn.value)
  let levels1 := if (acc.2.lookup s).isSome then acc.2 else (s, 0) :: acc.2
  match levels1.lookup s, levels1.lookup d with
  | some ls, some ld =>
    some ({ G1 with subsetHist := (d, ld) :: (s, ls) :: G1.subsetHist }, levels1)
  | _, _ => none

/-- `build_graph` (`eth_track.py` lines 84-96).  Returns the graph together
with the updated `node_levels` dict (the Python function mutates the dict
it is handed, so the caller sees the new level-0 bindings); `none` models
an uncaught `KeyError`. -/
def build_graph (txns : List Txn) (levels : Levels) : Option (Graph × Levels) :=
  txns.foldlM buildStep (Graph.empty, levels)

end Eth

/-! ### The layout pass of `visualize_graph`

Both scripts share this code verbatim (`eth_track.py` lines 103-130,
`xrp_track.py` lines 89-112).  Only the deterministic placement pass is
modelled: the per-level grouping of `node_levels`, the anchor for the
first level-0 node, the within-level ranking by total inbound weight, and
the set of nodes left to the uniformly random fallback.  The cosmetic
jitter and everything after it is rendering. -/

/-- The keys of a `node_levels` dict in Python iteration order (first
insertion first; `List.dedup` keeps the last, i.e. chronologically first,
occurrence of the newest-first history, so the reversal is insertion
order). -/
def keysInOrder (m : Levels) : List String := ((m.map Prod.fst).dedup).reverse

/-- `node_levels.items()` in Python iteration order with current values. -/
def dictPairs (m : Levels) : List (String × Nat) :=
  (keysInOrder m).filterMap (fun k => (m.lookup k).map (fun v => (k, v)))

/-- Append `node` to the bucket for `lvl`, creating the bucket at the end
when absent (Python `dict`-of-lists insertion order). -/
def addToGroups (gs : List (Nat × List String)) (lvl : Nat) (node : String) :
    List (Nat × List String) :=
  match gs with
  | [] => [(lvl, [node])]
  | (l, ns) :: rest =>
    if l = lvl then (l, ns ++ [node]) :: rest
    else (l, ns) :: addToGroups rest lvl node

/-- The `level_nodes` grouping loop of `visualize_graph`. -/
def levelGroups (m : Levels) : List (Nat × List String) :=
  (dictPairs m).foldl (fun gs p => addToGroups gs p.2 p.1) []

/-- `sum([G.edges[edge]['weight'] for edge in G.in_edges(node)])`: the
total current inbound weight of a node. -/
def inSum (G : Graph) (v : String) : ℚ :=
  (((G.edgeHist.map (fun e => (e.1, e.2.1))).dedup).filter
      (fun p => p.2 == v)).foldl
    (fun acc p => acc + ((edgeWeight G p.1 p.2).getD 0)) 0

/-- Positions assigned by the placement pass, a dict keyed by node
(pre-jitter integer coordinates). -/
abbrev Pos := List (String × (Int × Int))

/-- One iteration of the placement loop: level `0` pins `nodes[0]` at the
`(0, 0)` anchor; any other level sorts its nodes by descending inbound
weight (stably, like Python `list.sort(..., reverse=True)`) and assigns
`pos[node] = (level, -i)`. -/
def placeLevel (G : Graph) (pos : Pos) (lvl : Nat) (ns : List String) : Pos :=
  if lvl = 0 then
    match ns with
    | [] => pos
    | n :: _ => (n, ((0 : Int), (0 : Int))) :: pos
  else
    let sorted := ns.insertionSort (fun a b => inSum G b ≤ inSum G a)
    sorted.enum.foldl
      (fun p ia => (ia.2, ((lvl : Int), -(ia.1 : Int))) :: p) pos

/-- The whole placement pass over the level groups. -/
def layoutPos (G : Graph) (m : Levels) : Pos :=
  (levelGroups m).foldl (fun pos g => placeLevel G pos g.1 g.2) []

/-- The keys of the position dict. -/
def placedKeys (pos : Pos) : List String := pos.map Prod.fst

/-- `remaining_nodes = set(G.nodes) - set(pos.keys())`: the nodes handed to
the uniformly random fallback placement. -/
def remainingNodes (G : Graph) (pos : Pos) : List String :=
  G.nodes.filter (fun n => !(placedKeys pos).contains n)

namespace Xrp

/-- One xrpscan transaction record, keeping the fields `xrp_track.py`
reads: `Account` (the sender), the optional `Destination` and
`Amount` (`Amount['value']`, drops, an integer; `none` models a record
missing the field) and the parsed `date`. -/
structure XTxn where
  account : String
  destination : Option String
  amountValue : Option Int
  date : Nat
deriving DecidableEq, Repr

/-- `float(amount) / 1_000_000`: drops-to-XRP conversion, as the exact
rational `v / 10^6`. -/
def dropsToXrp (v : Int) : ℚ := mkRat v (10 ^ 6)

/-- The filter of the xrp `fetch_all_transactions` (`xrp_track.py` line
40): `start_datetime <= txn_date <= end_datetime` — and nothing else; in
particular no positivity check on the amount. -/
def txnAccepted (startT endT : Nat) (t : XTxn) : Bool :=
  decide (startT ≤ t.date) && decide (t.date ≤ endT)

/-- `fetch_all_transactions` (`xrp_track.py` lines 33-46).  The `ledger`
oracle stands for the marker-paginated `get_transactions` calls and either
delivers the concatenated page contents or raises (`Except.error`, e.g.
`"Max retries exceeded"`); delivered records are filtered by the window. -/
def fetch_all_transactions (ledger : String → Except String (List XTxn))
    (startT endT : Nat) (account : String) : Except String (List XTxn) :=
  match ledger account with
  | .error e => .error e
  | .ok txns => .ok (txns.filter (txnAccepted startT endT))

/-- The mutable state threaded through the xrp `trace_transactions`,
with the same fetch-log instrumentation as the eth model. -/
structure XState where
  traced : List String
  node_levels : Levels
  fetchLog : List String
deriving DecidableEq, Repr

/-- The `for txn in transactions:` loop of the xrp `trace_transactions`
(`xrp_track.py` lines 59-65): records missing `Destination` or `Amount`
are skipped; an untraced destination is appended, levelled at `depth + 1`
and recursed into.  An exception anywhere aborts the whole loop. -/
def traceLoopF (next : String → XState → Except String (List XTxn × XState))
    (depth : Nat) : List XTxn → XState → Except String (List XTxn × XState)
  | [], st => .ok ([], st)
  | txn :: rest, st =>
    match txn.destination, txn.amountValue with
    | some dest, some _ =>
      if dest ∉ st.traced then
        let st1 : XState :=
          { st with node_levels := (dest, depth + 1) :: st.node_levels }
        match next dest st1 with
        | .error e => .error e
        | .ok (sub, st2) =>
          match traceLoopF next depth rest st2 with
          | .error e => .error e
          | .ok (more, st3) => .ok (txn :: (sub ++ more), st3)
      else traceLoopF next depth rest st
    | _, _ => traceLoopF next depth rest st

/-- `trace_transactions` (`xrp_track.py` lines 49-67), fuelled like the
eth model.  No exception handler exists anywhere in the crawl, so an
`Except.error` from a fetch propagates to the top. -/
def traceF (ledger : String → Except String (List XTxn)) (startT endT maxDepth : Nat) :
    Nat → String → Nat → XState → Except String (List XTxn × XState)
  | 0, _, _, st => .ok ([], st)
  | fuel + 1, account, depth, st =>
    if maxDepth < depth ∨ account ∈ st.traced then .ok ([], st)
    else
      let st1 : XState :=
        { st with traced := account :: st.traced,
                  fetchLog := st.fetchLog ++ [account] }
      match fetch_all_transactions ledger startT endT account with
      | .error e => .error e
      | .ok txns =>
        traceLoopF (fun a s => traceF ledger startT endT maxDepth fuel a (depth + 1) s)
          depth txns st1

/-- The initial state of the xrp `__main__` driver. -/
def initState (origin : String) : XState :=
  { traced := [], node_levels := [(origin, 0)], fetchLog := [] }

/-- A whole xrp trace as run by the `__main__` driver. -/
def trace_transactions (ledger : String → Except String (List XTxn))
    (startT endT maxDepth : Nat) (origin : String) :
    Except String (List XTxn × XState) :=
  traceF ledger startT endT maxDepth (maxDepth + 2) origin 0 (initState origin)

/-- One iteration of the xrp `build_graph` loop (`xrp_track.py` lines
72-82): records missing `Destination` or `Amount` are skipped entirely;
otherwise insert the edge with the drops-converted weight, default an
unseen source to level `0`, and read both endpoint levels for the
`subset_key` attributes (`none` models the `KeyError` on a missing
destination level). -/
def buildStep (acc : Graph × Levels) (txn : XTxn) : Option (Graph × Levels) :=
  let s := txn.account
  match txn.destination, txn.amountValue with
  | some d, some v =>
    let G1 := addEdge acc.1 s d (dropsToXrp v)
    let levels1 := if (acc.2.lookup s).isSome then acc.2 else (s, 0) :: acc.2
    match levels1.lookup s, levels1.lookup d with
    | some ls, some ld =>
      some ({ G1 with subsetHist := (d, ld) :: (s, ls) :: G1.subsetHist }, levels1)
    | _, _ => none
  | _, _ => some acc

/-- `build_graph` (`xrp_track.py` lines 70-83). -/
def build_graph (txns : List XTxn) (levels : Levels) : Option (Graph × Levels) :=
  txns.foldlM buildStep (Graph.empty, levels)

/-! ### `get_transactions` retry loops

`get_transactions` is modelled against an injected sequence of HTTP
responses, one consumed per loop iteration.  Sleeps are counted: `rl` for
the 60-second rate-limit sleeps, `bo` for the 30-second backoff sleeps of
the xrp variant. -/

/-- An injected HTTP response: status code and (for 2xx) the decoded
body. -/
structure Resp where
  status : Nat
  body : String
deriving DecidableEq, Repr

/-- Outcome of a `get_transactions` call.  `maxRetries` is the
`Exception("Max retries exceeded")` of `xrp_track.py`, `httpError s` the
`requests.HTTPError` re-raised for a status `s` that is neither 429 nor
504, and `outOfResponses` marks exhaustion of the injected sequence (the
real loop would issue another request). -/
inductive GetResult where
  | ok (body : String) (rl bo : Nat)
  | maxRetries (rl bo : Nat)
  | httpError (status : Nat) (rl bo : Nat)
  | outOfResponses (rl bo : Nat)
deriving DecidableEq, Repr

/-- The retry loop of the xrp `get_transactions` (`xrp_track.py` lines
13-30): while `attempt < retries`: a 429 sleeps 60s and retries without
counting an attempt; a success (`raise_for_status` passes, status < 400)
returns the body; a 504 sleeps 30s and counts an attempt; any other
failure status re-raises.  Falling out of the loop raises
`Max retries exceeded`. -/
def getTxLoop (retries : Nat) : List Resp → Nat → Nat → Nat → GetResult
  | [], attempt, rl, bo =>
    if retries ≤ attempt then .maxRetries rl bo else .outOfResponses rl bo
  | r :: rest, attempt, rl, bo =>
    if retries ≤ attempt then .maxRetries rl bo
    else if r.status = 429 then getTxLoop retries rest attempt (rl + 1) bo
    else if r.status < 400 then .ok r.body rl bo
    else if r.status = 504 then getTxLoop retries rest (attempt + 1) rl (bo + 1)
    else .httpError r.status rl bo

/-- `get_transactions` (`xrp_track.py` lines 10-30; default
`retries=5`). -/
def get_transactions (retries : Nat) (rs : List Resp) : GetResult :=
  getTxLoop retries rs 0 0 0

end Xrp

namespace Eth

/-- The retry loop of the eth `get_transactions` (`eth_track.py` lines
29-36): `while True`: a 429 sleeps 60s and retries; otherwise
`raise_for_status()` either raises (status ≥ 400) or the body is
returned.  There is no retry cap and no 504 handling. -/
def getTxLoop : List Xrp.Resp → Nat → Xrp.GetResult
  | [], rl => .outOfResponses rl 0
  | r :: rest, rl =>
    if r.status = 429 then getTxLoop rest (rl + 1)
    else if r.status < 400 then .ok r.body rl 0
    else .httpError r.status rl 0

/-- `get_transactions` (`eth_track.py` lines 16-36). -/
def get_transactions (rs : List Xrp.Resp) : Xrp.GetResult :=
  getTxLoop rs 0

end Eth

/-! ### Dictionary helper lemmas -/

/-- A dict read that succeeds keeps succeeding after more bindings are
pushed on top of the history. -/
theorem lookup_isSome_append (p l : Levels) (k : String)
    (h : (l.lookup k).isSome) : ((p ++ l).lookup k).isSome := by
  induction p with
  | nil => simpa using h
  | cons q p ih =>
    rcases q with ⟨a, v⟩
    simp only [List.cons_append, List.lookup]
    cases hba : k == a
    · simpa using ih
    · simp

/-- Reading a key other than the newest binding skips that binding. -/
theorem lookup_cons_ne (k a : String) (v : Nat) (l : Levels) (h : k ≠ a) :
    (((a, v) :: l).lookup k) = l.lookup k := by
  simp only [List.lookup]
  cases hba : k == a
  · rfl
  · exact absurd (eq_of_beq hba) h

namespace Eth

/-- `traceLoopF` only depends on the values of its recursive-call
parameter. -/
theorem traceLoopF_congr (next₁ next₂ : String → TraceState → List Txn × TraceState)
    (h : ∀ a s, next₁ a s = next₂ a s) (depth : Nat) :
    ∀ txns st, traceLoopF next₁ depth txns st = traceLoopF next₂ depth txns st := by
  intro txns
  induction txns with
  | nil => intro st; rfl
  | cons txn rest ih =>
    intro st
    simp only [traceLoopF]
    split
    · rw [h, ih]
    · exact ih st

/-- Any two fuels that the `depth > max_depth` guard can never let run out
give the same trace; in particular the fuel `maxDepth + 2` used by
`trace_transactions` is canonical. -/
theorem traceF_fuel_congr (ledger : String → List Txn) (startT endT maxDepth : Nat) :
    ∀ fuel₁ fuel₂ account depth st, maxDepth < depth + fuel₁ →
      maxDepth < depth + fuel₂ →
      traceF ledger startT endT maxDepth fuel₁ account depth st =
        traceF ledger startT endT maxDepth fuel₂ account depth st := by
  intro fuel₁
  induction fuel₁ with
  | zero =>
    intro fuel₂ account depth st h₁ h₂
    cases fuel₂ with
    | zero => rfl
    | succ f =>
      simp only [traceF]
      rw [if_pos]
      left
      omega
  | succ f₁ ih =>
    intro fuel₂ account depth st h₁ h₂
    cases fuel₂ with
    | zero =>
      simp only [traceF]
      rw [if_pos]
      left
      omega
    | succ f₂ =>
      simp only [traceF]
      split
      · rfl
      · exact traceLoopF_congr _ _
          (fun a s => ih f₂ a (depth + 1) s (by omega) (by omega)) _ _ _

/-! ### The master invariant of the eth tracer

`TracePost` collects everything one call of `traceF` guarantees, relating
its entry state to its result: the visited set, level dict and fetch log
only grow; levels of already-visited accounts are never rewritten; every
new level binding `(b, d)` of a run entered at `(account, depth)` is
reachable from `account` in `d - depth` accepted transfers with
`depth + 1 ≤ d ≤ maxDepth + 1` (under the assumption — true of the real
APIs — that an account's history page only contains transactions
involving it); the fetch log stays duplicate-free; and every returned
transaction passed the filter, has a truthy destination, positive amount,
and a destination levelled in the final dict. -/

theorem reachN_refl (ledger : String → List Txn) (startT endT : Nat) :
    ∀ n a, reachN ledger startT endT n a a
  | 0, _ => rfl
  | _ + 1, _ => Or.inl rfl

theorem reachN_succ (ledger : String → List Txn) (startT endT : Nat) :
    ∀ n a b, reachN ledger startT endT n a b → reachN ledger startT endT (n + 1) a b
  | 0, _, _, h => Or.inl h
  | n + 1, _, b, h =>
    h.elim Or.inl fun ⟨c, hc, hr⟩ => Or.inr ⟨c, hc, reachN_succ ledger startT endT n c b hr⟩

theorem reachN_mono (ledger : String → List Txn) (startT endT : Nat)
    {m n : Nat} (h : m ≤ n) {a b : String}
    (hr : reachN ledger startT endT m a b) : reachN ledger startT endT n a b := by
  induction h with
  | refl => exact hr
  | step _ ih => exact reachN_succ ledger startT endT _ a b ih

/-- What one tracer call guarantees (see the section comment). -/
def TracePost (ledger : String → List Txn) (startT endT maxDepth : Nat)
    (account : String) (depth : Nat) (st : TraceState)
    (out : List Txn × TraceState) : Prop :=
  (∃ p, out.2.traced = p ++ st.traced) ∧
  (∃ pL, out.2.node_levels = pL ++ st.node_levels ∧
    ((∀ acct t, t ∈ ledger acct → t.fromAcct = acct ∨ t.toAcct = acct) →
      ∀ q ∈ pL, depth + 1 ≤ q.2 ∧ q.2 ≤ maxDepth + 1 ∧
        reachN ledger startT endT (q.2 - depth) account q.1)) ∧
  (∀ a ∈ st.traced, out.2.node_levels.lookup a = st.node_levels.lookup a) ∧
  (∃ pF, out.2.fetchLog = st.fetchLog ++ pF) ∧
  ((∀ x ∈ st.fetchLog, x ∈ st.traced) → ∀ x ∈ out.2.fetchLog, x ∈ out.2.traced) ∧
  (st.fetchLog.Nodup → (∀ x ∈ st.fetchLog, x ∈ st.traced) → out.2.fetchLog.Nodup) ∧
  (∀ t ∈ out.1, txnAccepted startT endT t = true ∧ t.toAcct ≠ "" ∧
    0 < weiToEth t.value ∧ (out.2.node_levels.lookup t.toAcct).isSome)

/-- A call that returns its state untouched with no transactions satisfies
the post-condition. -/
theorem tracePost_nil (ledger : String → List Txn) (startT endT maxDepth : Nat)
    (account : String) (depth : Nat) (st : TraceState) :
    TracePost ledger startT endT maxDepth account depth st ([], st) := by
  refine ⟨⟨[], rfl⟩, ⟨[], rfl, ?_⟩, fun a _ => rfl, ⟨[], by simp⟩,
    fun h => h, fun h _ => h, by simp⟩
  intro _ q hq
  exact absurd hq (List.not_mem_nil q)

/-- The loop of the tracer preserves the post-condition, given that the
recursive call does at depth `depth + 1`, that the looping account is
already traced, and that the processed transactions passed the filter on
the account's own page. -/
theorem traceLoopF_post (ledger : String → List Txn) (startT endT maxDepth : Nat)
    (next : String → TraceState → List Txn × TraceState)
    (account : String) (depth : Nat) (hdep : depth ≤ maxDepth)
    (hnext : ∀ a s, TracePost ledger startT endT maxDepth a (depth + 1) s (next a s)) :
    ∀ txns st, account ∈ st.traced →
      (∀ t ∈ txns, txnAccepted startT endT t = true) →
      ((∀ acct t, t ∈ ledger acct → t.fromAcct = acct ∨ t.toAcct = acct) →
        ∀ t ∈ txns, t.toAcct ≠ account → t.toAcct ≠ "" → 0 < weiToEth t.value →
          transferEdge ledger startT endT account t.toAcct) →
      TracePost ledger startT endT maxDepth account depth st
        (traceLoopF next depth txns st) := by
  intro txns
  induction txns with
  | nil => intro st _ _ _; exact tracePost_nil ledger startT endT maxDepth account depth st
  | cons txn rest ih =>
    intro st hacc hflt hedge
    by_cases hc : txn.toAcct ≠ "" ∧ txn.toAcct ∉ st.traced ∧ 0 < weiToEth txn.value
    · obtain ⟨hne, hnotr, hpos⟩ := hc
      have hto_ne_acc : txn.toAcct ≠ account := fun h => hnotr (h ▸ hacc)
      simp only [traceLoopF, if_pos (⟨hne, hnotr, hpos⟩ :
        txn.toAcct ≠ "" ∧ txn.toAcct ∉ st.traced ∧ 0 < weiToEth txn.value)]
      set st1 : TraceState :=
        { st with node_levels := (txn.toAcct, depth + 1) :: st.node_levels } with hst1
      obtain ⟨⟨p1, hp1⟩, ⟨pL1, hpL1, hreach1⟩, hkeep1, ⟨pF1, hpF1⟩, hlog1, hnd1, hout1⟩ :=
        hnext txn.toAcct st1
      set sub := next txn.toAcct st1 with hsub
      have hacc2 : account ∈ sub.2.traced := by
        rw [hp1]
        exact List.mem_append_right p1 hacc
      obtain ⟨⟨p2, hp2⟩, ⟨pL2, hpL2, hreach2⟩, hkeep2, ⟨pF2, hpF2⟩, hlog2, hnd2, hout2⟩ :=
        ih sub.2 hacc2 (fun t ht => hflt t (List.mem_cons_of_mem txn ht))
          (fun hw t ht => hedge hw t (List.mem_cons_of_mem txn ht))
      set more := traceLoopF next depth rest sub.2 with hmore
      have hedge0 : (∀ acct t, t ∈ ledger acct → t.fromAcct = acct ∨ t.toAcct = acct) →
          transferEdge ledger startT endT account txn.toAcct :=
        fun hw => hedge hw txn (List.mem_cons_self txn rest) hto_ne_acc hne hpos
      refine ⟨⟨p2 ++ p1, ?_⟩, ⟨pL2 ++ (pL1 ++ [(txn.toAcct, depth + 1)]), ?_, ?_⟩,
        ?_, ⟨pF1 ++ pF2, ?_⟩, ?_, ?_, ?_⟩
      · rw [hp2, hp1, hst1, List.append_assoc]
      · rw [hpL2, hpL1, hst1]
        simp [List.append_assoc]
      · intro hw q hq
        rcases List.mem_append.mp hq with hq2 | hq1
        · exact hreach2 hw q hq2
        · rcases List.mem_append.mp hq1 with hq1 | hq0
          · obtain ⟨h1, h2, h3⟩ := hreach1 hw q hq1
            refine ⟨by omega, h2, ?_⟩
            have : q.2 - depth = (q.2 - (depth + 1)) + 1 := by omega
            rw [this]
            exact Or.inr ⟨txn.toAcct, hedge0 hw, h3⟩
          · rcases List.mem_singleton.mp hq0 with rfl
            refine ⟨Nat.le_refl _, by omega, ?_⟩
            simp only [Nat.add_sub_cancel_left]
            exact Or.inr ⟨txn.toAcct, hedge0 hw, rfl⟩
      · intro a ha
        have ha1 : a ∈ st1.traced := ha
        have ha2 : a ∈ sub.2.traced := by
          rw [hp1]; exact List.mem_append_right p1 ha1
        rw [hkeep2 a ha2, hkeep1 a ha1, hst1]
        exact lookup_cons_ne a txn.toAcct (depth + 1) st.node_levels
          (fun h => hnotr (h ▸ ha))
      · rw [hpF2, hpF1, hst1]
        simp
      · intro hsub0 x hx
        have hst1log : ∀ y ∈ st1.fetchLog, y ∈ st1.traced := hsub0
        exact hlog2 (hlog1 hst1log) x hx
      · intro hnd hsub0
        exact hnd2 (hnd1 hnd hsub0) (hlog1 hsub0)
      · intro t ht
        rcases List.mem_cons.mp ht with rfl | ht'
        · refine ⟨hflt t (List.mem_cons_self t rest), hne, hpos, ?_⟩
          rw [hpL2, hpL1, hst1]
          refine lookup_isSome_append pL2 _ t.toAcct
            (lookup_isSome_append pL1 _ t.toAcct ?_)
          simp [List.lookup]
        · rcases List.mem_append.mp ht' with hts | htm
          · obtain ⟨h1, h2, h3, h4⟩ := hout1 t hts
            refine ⟨h1, h2, h3, ?_⟩
            rw [hpL2]
            exact lookup_isSome_append pL2 _ t.toAcct h4
          · exact hout2 t htm
    · simp only [traceLoopF, if_neg hc]
      exact ih st hacc (fun t ht => hflt t (List.mem_cons_of_mem txn ht))
        (fun hw t ht => hedge hw t (List.mem_cons_of_mem txn ht))

/-- The master invariant: every call of the fuelled tracer satisfies its
post-condition. -/
theorem traceF_post (ledger : String → List Txn) (startT endT maxDepth : Nat) :
    ∀ fuel account depth st,
      TracePost ledger startT endT maxDepth account depth st
        (traceF ledger startT endT maxDepth fuel account depth st) := by
  intro fuel
  induction fuel with
  | zero => intro account depth st; exact tracePost_nil ledger startT endT maxDepth account depth st
  | succ f ih =>
    intro account depth st
    by_cases hg : maxDepth < depth ∨ account ∈ st.traced
    · simp only [traceF, if_pos hg]
      exact tracePost_nil ledger startT endT maxDepth account depth st
    · push_neg at hg
      obtain ⟨hdep, hnotr⟩ := hg
      simp only [traceF, if_neg (by push_neg; exact ⟨hdep, hnotr⟩ :
        ¬(maxDepth < depth ∨ account ∈ st.traced))]
      set st1 : TraceState :=
        { st with traced := account :: st.traced,
                  fetchLog := st.fetchLog ++ [account] } with hst1
      have hacc1 : account ∈ st1.traced := List.mem_cons_self account st.traced
      have hflt : ∀ t ∈ fetch_all_transactions ledger startT endT account,
          txnAccepted startT endT t = true :=
        fun t ht => (List.mem_filter.mp ht).2
      have hedge : (∀ acct t, t ∈ ledger acct → t.fromAcct = acct ∨ t.toAcct = acct) →
          ∀ t ∈ fetch_all_transactions ledger startT endT account,
            t.toAcct ≠ account → t.toAcct ≠ "" → 0 < weiToEth t.value →
            transferEdge ledger startT endT account t.toAcct := by
        intro hw t ht htne hne hpos
        rcases hw account t (List.mem_filter.mp ht).1 with hfrom | hto
        · exact ⟨t, ht, hfrom, rfl, hne, hpos⟩
        · exact absurd hto htne
      obtain ⟨⟨p, hp⟩, ⟨pL, hpL, hreach⟩, hkeep, ⟨pF, hpF⟩, hlog, hnd, hout⟩ :=
        traceLoopF_post ledger startT endT maxDepth _ account depth
          hdep (fun a s => ih a (depth + 1) s)
          (fetch_all_transactions ledger startT endT account) st1 hacc1 hflt hedge
      refine ⟨⟨p ++ [account], ?_⟩, ⟨pL, ?_, hreach⟩, ?_, ⟨[account] ++ pF, ?_⟩, ?_, ?_, hout⟩
      · rw [hp, hst1]
        simp
      · rw [hpL, hst1]
      · intro a ha
        have ha1 : a ∈ st1.traced := List.mem_cons_of_mem account ha
        rw [hkeep a ha1, hst1]
      · rw [hpF, hst1]
        simp
      · intro hsub x hx
        refine hlog ?_ x hx
        intro y hy
        rw [hst1] at hy ⊢
        rcases List.mem_append.mp hy with hy' | hy'
        · exact List.mem_cons_of_mem account (hsub y hy')
        · rcases List.mem_singleton.mp hy' with rfl
          exact List.mem_cons_self y st.traced
      · intro hnodup hsub
        refine hnd ?_ ?_
        · rw [hst1]
          refine List.Nodup.append hnodup (List.nodup_singleton account) ?_
          intro y hy hy'
          rcases List.mem_singleton.mp hy' with rfl
          exact hnotr (hsub y hy)
        · intro y hy
          rw [hst1] at hy ⊢
          rcases List.mem_append.mp hy with hy' | hy'
          · exact List.mem_cons_of_mem account (hsub y hy')
          · rcases List.mem_singleton.mp hy' with rfl
            exact List.mem_cons_self y st.traced

/-! ### Concrete fixtures -/

/-- `A → B`, 5 ETH, in-window. -/
def txnAB : Txn := ⟨"t1", "A", "B", 5000000000000000000, 50⟩

/-- `A → C`, 3 ETH, in-window. -/
def txnAC : Txn := ⟨"t2", "A", "C", 3000000000000000000, 50⟩

/-- `B → D`, 1 ETH, in-window. -/
def txnBD : Txn := ⟨"t3", "B", "D", 1000000000000000000, 50⟩

/-- The §8.7 scenario ledger: transactions `A→B`, `A→C`, `B→D`; like the
real history endpoints, every account's page lists the transactions it is
involved in on either side. -/
def scenarioLedger : String → List Txn := fun a =>
  if a = "A" then [txnAB, txnAC]
  else if a = "B" then [txnAB, txnBD]
  else if a = "C" then [txnAC]
  else if a = "D" then [txnBD]
  else []

/-- `scenarioLedger` only ever reports transactions involving the queried
account. -/
theorem scenarioLedger_involvement :
    ∀ acct t, t ∈ scenarioLedger acct → t.fromAcct = acct ∨ t.toAcct = acct := by
  intro acct t ht
  unfold scenarioLedger at ht
  split_ifs at ht with h1 h2 h3 h4
  · rcases List.mem_cons.mp ht with rfl | ht'
    · exact Or.inl h1.symm
    · rcases List.mem_singleton.mp ht' with rfl
      exact Or.inl h1.symm
  · rcases List.mem_cons.mp ht with rfl | ht'
    · exact Or.inr h2.symm
    · rcases List.mem_singleton.mp ht' with rfl
      exact Or.inl h2.symm
  · rcases List.mem_singleton.mp ht with rfl
    exact Or.inr h3.symm
  · rcases List.mem_singleton.mp ht with rfl
    exact Or.inr h4.symm
  · exact absurd ht (List.not_mem_nil t)

/-- A five-transaction ledger (`A→B`, `A→C`, `B→X`, `X→F`, `C→F`, one
ETH each, in-window, involvement-closed like the real endpoints) on which
at `max_depth = 2` the account `F` is first discovered through the long
branch `A→B→X→F` at the frontier level `3` and later re-discovered through
`A→C→F` at level `2`. -/
def overlapLedger : String → List Txn := fun a =>
  if a = "A" then [⟨"u1", "A", "B", 10 ^ 18, 50⟩, ⟨"u2", "A", "C", 10 ^ 18, 50⟩]
  else if a = "B" then [⟨"u1", "A", "B", 10 ^ 18, 50⟩, ⟨"u3", "B", "X", 10 ^ 18, 50⟩]
  else if a = "X" then [⟨"u3", "B", "X", 10 ^ 18, 50⟩, ⟨"u4", "X", "F", 10 ^ 18, 50⟩]
  else if a = "C" then [⟨"u2", "A", "C", 10 ^ 18, 50⟩, ⟨"u5", "C", "F", 10 ^ 18, 50⟩]
  else if a = "F" then [⟨"u4", "X", "F", 10 ^ 18, 50⟩, ⟨"u5", "C", "F", 10 ^ 18, 50⟩]
  else []

end Eth

/-- C1.  The claim asserts that with origin `A` and `max_depth = 1` over
`A→B`, `A→C`, `B→D` the tracer never observes `B→D` and the final level
map is exactly `A=0, B=1, C=1`.  False: the guard is `depth > max_depth`,
so `B` (depth 1) is expanded, `B→D` is appended and `D` is levelled `2`. -/
theorem c1_counterexample :
    CryptoHackTrack.Eth.txnBD ∈
      (CryptoHackTrack.Eth.trace_transactions CryptoHackTrack.Eth.scenarioLedger
        0 100 1 "A").1 ∧
    (CryptoHackTrack.Eth.trace_transactions CryptoHackTrack.Eth.scenarioLedger
      0 100 1 "A").2.node_levels.lookup "D" = some 2 := by
  decide

/-- C1 (amended).  With origin `A` and `max_depth = 1` over `A→B`, `A→C`,
`B→D` (all in-window, positive): `B` is expanded at depth 1 (the guard
`depth > max_depth` only stops depth-2 calls), so the accumulated list is
exactly `[A→B, B→D, A→C]`, the level map is exactly `A=0, B=1, C=1, D=2`,
and the graph has exactly the nodes `A, B, D, C` with edges `A→B`, `B→D`,
`A→C`. -/
theorem c1_amended :
    (CryptoHackTrack.Eth.trace_transactions CryptoHackTrack.Eth.scenarioLedger
        0 100 1 "A").1 =
      [CryptoHackTrack.Eth.txnAB, CryptoHackTrack.Eth.txnBD,
        CryptoHackTrack.Eth.txnAC] ∧
    (CryptoHackTrack.Eth.trace_transactions CryptoHackTrack.Eth.scenarioLedger
        0 100 1 "A").2.node_levels =
      [("C", 1), ("D", 2), ("B", 1), ("A", 0)] ∧
    (CryptoHackTrack.Eth.build_graph
        (CryptoHackTrack.Eth.trace_transactions CryptoHackTrack.Eth.scenarioLedger
          0 100 1 "A").1
        (CryptoHackTrack.Eth.trace_transactions CryptoHackTrack.Eth.scenarioLedger
          0 100 1 "A").2.node_levels).map
        (fun gl => (gl.1.nodes, gl.1.edgeHist.map (fun e => (e.1, e.2.1)))) =
      some (["A", "B", "D", "C"], [("A", "C"), ("B", "D"), ("A", "B")]) := by
  decide

/-- C2.  The claim asserts that for `max_depth = k` no account at true
shortest transfer distance `> k` from the origin ever appears as a key of
the final level map.  False at `k = 1` on the §8.7 scenario: `D` (distance
2, only path `A→B→D`) is a key. -/
theorem c2_counterexample :
    "D" ∈ (CryptoHackTrack.Eth.trace_transactions CryptoHackTrack.Eth.scenarioLedger
        0 100 1 "A").2.node_levels.map Prod.fst ∧
    ¬ CryptoHackTrack.Eth.reachN CryptoHackTrack.Eth.scenarioLedger 0 100 1 "A" "D" := by
  constructor
  · decide
  · intro h
    have h' : "A" = "D" ∨ ∃ c,
        CryptoHackTrack.Eth.transferEdge CryptoHackTrack.Eth.scenarioLedger 0 100 "A" c ∧
        CryptoHackTrack.Eth.reachN CryptoHackTrack.Eth.scenarioLedger 0 100 0 c "D" := h
    rcases h' with h' | ⟨c, ⟨t, ht, _, hto, _, _⟩, hc⟩
    · exact absurd h' (by decide)
    · have hc' : c = "D" := hc
      have hfa : CryptoHackTrack.Eth.fetch_all_transactions
          CryptoHackTrack.Eth.scenarioLedger 0 100 "A" =
          [CryptoHackTrack.Eth.txnAB, CryptoHackTrack.Eth.txnAC] := by decide
      rw [hfa] at ht
      rcases List.mem_cons.mp ht with rfl | ht'
      · exact absurd (hto.trans hc') (by decide)
      · rcases List.mem_singleton.mp ht' with rfl
        exact absurd (hto.trans hc') (by decide)

/-- C2 (amended).  Provided the history endpoint only reports transactions
involving the queried account (true of the real APIs), every key of the
final level map of a `max_depth = k` trace is reachable from the origin in
at most `k + 1` accepted transfer hops — i.e. no account at true shortest
distance `> k + 1` ever appears (frontier accounts at distance exactly
`k + 1` do appear, which is what falsifies the claim as stated). -/
theorem c2_amended (ledger : String → List CryptoHackTrack.Eth.Txn)
    (startT endT k : Nat) (origin a : String)
    (hw : ∀ acct t, t ∈ ledger acct → t.fromAcct = acct ∨ t.toAcct = acct)
    (ha : a ∈ (CryptoHackTrack.Eth.trace_transactions ledger startT endT k
      origin).2.node_levels.map Prod.fst) :
    CryptoHackTrack.Eth.reachN ledger startT endT (k + 1) origin a := by
  obtain ⟨_, ⟨pL, hpL, hreach⟩, _⟩ :=
    CryptoHackTrack.Eth.traceF_post ledger startT endT k (k + 2) origin 0
      ⟨[], [(origin, 0)], []⟩
  have ha' : a ∈ ((CryptoHackTrack.Eth.traceF ledger startT endT k (k + 2) origin 0
      ⟨[], [(origin, 0)], []⟩).2.node_levels).map Prod.fst := ha
  rw [hpL] at ha'
  rcases List.mem_map.mp ha' with ⟨q, hq, rfl⟩
  rcases List.mem_append.mp hq with hq' | hq'
  · obtain ⟨_, h2, h3⟩ := hreach hw q hq'
    exact CryptoHackTrack.Eth.reachN_mono ledger startT endT
      (by omega : q.2 - 0 ≤ k + 1) h3
  · rcases List.mem_singleton.mp hq' with rfl
    exact CryptoHackTrack.Eth.reachN_refl ledger startT endT (k + 1) origin

/-- C2 (witness): the amended bound instantiated on the §8.7 scenario at
`max_depth = 1`: `D` is a key of the final level map and is reachable from
`A` in at most 2 hops. -/
theorem c2_amended_witness :
    ((∀ acct t, t ∈ CryptoHackTrack.Eth.scenarioLedger acct →
        t.fromAcct = acct ∨ t.toAcct = acct) ∧
      "D" ∈ (CryptoHackTrack.Eth.trace_transactions CryptoHackTrack.Eth.scenarioLedger
        0 100 1 "A").2.node_levels.map Prod.fst) ∧
    CryptoHackTrack.Eth.reachN CryptoHackTrack.Eth.scenarioLedger 0 100 2 "A" "D" :=
  ⟨⟨CryptoHackTrack.Eth.scenarioLedger_involvement, by decide⟩,
    c2_amended CryptoHackTrack.Eth.scenarioLedger 0 100 1 "A" "D"
      CryptoHackTrack.Eth.scenarioLedger_involvement (by decide)⟩

/-- C3.  The claim asserts a level is assigned exactly once, at first
discovery, and never overwritten by a later discovery through another
branch.  False on `overlapLedger` at `max_depth = 2`: `F` is first
levelled `3` (via `A→B→X→F`) and later overwritten with `2` (via
`A→C→F`), as the full assignment history shows. -/
theorem c3_counterexample :
    ((CryptoHackTrack.Eth.trace_transactions CryptoHackTrack.Eth.overlapLedger
        0 100 2 "A").2.node_levels.filter (fun p => p.1 == "F")).map Prod.snd =
      [2, 3] ∧
    (CryptoHackTrack.Eth.trace_transactions CryptoHackTrack.Eth.overlapLedger
      0 100 2 "A").2.node_levels.lookup "F" = some 2 := by
  decide

/-- C3 (amended).  A level can be re-assigned as long as the account has
not been expanded (in particular a frontier account first levelled
`max_depth + 1` can later be overwritten by a shorter-path discovery); but
once an account is in the traced set its level binding never changes for
the rest of the trace: whatever the tracer does from any intermediate
state, the level it reads afterwards for an already-traced account is the
level that state already had. -/
theorem c3_amended (ledger : String → List CryptoHackTrack.Eth.Txn)
    (startT endT maxDepth fuel depth : Nat) (account acct : String)
    (st : CryptoHackTrack.Eth.TraceState) (h : acct ∈ st.traced) :
    (CryptoHackTrack.Eth.traceF ledger startT endT maxDepth fuel account depth
        st).2.node_levels.lookup acct = st.node_levels.lookup acct := by
  obtain ⟨_, _, hkeep, _⟩ :=
    CryptoHackTrack.Eth.traceF_post ledger startT endT maxDepth fuel account depth st
  exact hkeep acct h

namespace Xrp

/-- Reduced post-condition of one call of the xrp tracer, enough for the
no-re-expansion property: on a successful return the visited set and the
fetch log only grow, the log stays inside the visited set, and it stays
duplicate-free. -/
def XPost (st : XState) (out : Except String (List XTxn × XState)) : Prop :=
  ∀ res, out = .ok res →
    (∃ p, res.2.traced = p ++ st.traced) ∧
    (∃ pF, res.2.fetchLog = st.fetchLog ++ pF) ∧
    ((∀ x ∈ st.fetchLog, x ∈ st.traced) → ∀ x ∈ res.2.fetchLog, x ∈ res.2.traced) ∧
    (st.fetchLog.Nodup → (∀ x ∈ st.fetchLog, x ∈ st.traced) → res.2.fetchLog.Nodup)

/-- A call that returns its state untouched satisfies the reduced
post-condition. -/
theorem xPost_nil (st : XState) : XPost st (.ok ([], st)) := by
  intro res hres
  cases hres
  exact ⟨⟨[], rfl⟩, ⟨[], by simp⟩, fun h => h, fun h _ => h⟩

/-- The xrp tracer loop preserves the reduced post-condition. -/
theorem traceLoopF_xpost (next : String → XState → Except String (List XTxn × XState))
    (depth : Nat) (hnext : ∀ a s, XPost s (next a s)) :
    ∀ txns st, XPost st (traceLoopF next depth txns st) := by
  intro txns
  induction txns with
  | nil => intro st; exact xPost_nil st
  | cons txn rest ih =>
    intro st
    rcases hd : txn.destination with _ | dest
    · simp only [traceLoopF, hd]
      exact ih st
    · rcases ha : txn.amountValue with _ | v
      · simp only [traceLoopF, hd, ha]
        exact ih st
      · simp only [traceLoopF, hd, ha]
        by_cases hmem : dest ∉ st.traced
        · rw [if_pos hmem]
          intro res hres
          set st1 : XState :=
            { st with node_levels := (dest, depth + 1) :: st.node_levels } with hst1
          rcases hsub : next dest st1 with e | ⟨subL, subSt⟩ <;> rw [hsub] at hres <;>
            dsimp only at hres
          · cases hres
          · rcases hmore : traceLoopF next depth rest subSt with e2 | ⟨moreL, moreSt⟩ <;>
              rw [hmore] at hres <;> dsimp only at hres
            · cases hres
            · cases hres
              obtain ⟨⟨p1, hp1⟩, ⟨pF1, hpF1⟩, hlog1, hnd1⟩ := hnext dest st1 _ hsub
              obtain ⟨⟨p2, hp2⟩, ⟨pF2, hpF2⟩, hlog2, hnd2⟩ := ih subSt _ hmore
              refine ⟨⟨p2 ++ p1, ?_⟩, ⟨pF1 ++ pF2, ?_⟩, ?_, ?_⟩
              · rw [hp2, hp1, List.append_assoc]
              · rw [hpF2, hpF1, List.append_assoc]
              · intro hsub0 x hx
                exact hlog2 (hlog1 hsub0) x hx
              · intro hnd hsub0
                exact hnd2 (hnd1 hnd hsub0) (hlog1 hsub0)
        · rw [if_neg hmem]
          exact ih st

/-- The reduced master invariant of the xrp tracer. -/
theorem traceF_xpost (ledger : String → Except String (List XTxn))
    (startT endT maxDepth : Nat) :
    ∀ fuel account depth st,
      XPost st (traceF ledger startT endT maxDepth fuel account depth st) := by
  intro fuel
  induction fuel with
  | zero => intro account depth st; exact xPost_nil st
  | succ f ih =>
    intro account depth st
    by_cases hg : maxDepth < depth ∨ account ∈ st.traced
    · simp only [traceF, if_pos hg]
      exact xPost_nil st
    · simp only [traceF, if_neg hg]
      push_neg at hg
      obtain ⟨hdep, hnotr⟩ := hg
      set st1 : XState :=
        { st with traced := account :: st.traced,
                  fetchLog := st.fetchLog ++ [account] } with hst1
      rcases hfa : fetch_all_transactions ledger startT endT account with e | txns
      · intro res hres
        cases hres
      · intro res hres
        obtain ⟨⟨p, hp⟩, ⟨pF, hpF⟩, hlog, hnd⟩ :=
          traceLoopF_xpost _ depth (fun a s => ih a (depth + 1) s) txns st1 res hres
        refine ⟨⟨p ++ [account], ?_⟩, ⟨[account] ++ pF, ?_⟩, ?_, ?_⟩
        · rw [hp, hst1]
          simp
        · rw [hpF, hst1]
          simp
        · intro hsub x hx
          refine hlog ?_ x hx
          intro y hy
          rw [hst1] at hy ⊢
          rcases List.mem_append.mp hy with hy' | hy'
          · exact List.mem_cons_of_mem account (hsub y hy')
          · rcases List.mem_singleton.mp hy' with rfl
            exact List.mem_cons_self y st.traced
        · intro hnodup hsub
          refine hnd ?_ ?_
          · rw [hst1]
            refine List.Nodup.append hnodup (List.nodup_singleton account) ?_
            intro y hy hy'
            rcases List.mem_singleton.mp hy' with rfl
            exact hnotr (hsub y hy)
          · intro y hy
            rw [hst1] at hy ⊢
            rcases List.mem_append.mp hy with hy' | hy'
            · exact List.mem_cons_of_mem account (hsub y hy')
            · rcases List.mem_singleton.mp hy' with rfl
              exact List.mem_cons_self y st.traced

/-- A record with a zero `Amount` inside the window: `A → B`, 0 drops. -/
def xtxnAB0 : XTxn := ⟨"A", some "B", some 0, 50⟩

/-- An xrp ledger whose only transaction `A → B` carries amount 0 (both
accounts report it, like the real endpoint). -/
def xLedger : String → Except String (List XTxn) := fun a =>
  if a = "A" then .ok [xtxnAB0]
  else if a = "B" then .ok [xtxnAB0]
  else .ok []

end Xrp

/-- C4.  Within a single trace, each account's pages are fetched at most
once: the fetch log of a whole eth trace is duplicate-free and contained
in the traced set (an account is added to `traced` before its fetch), and
the same holds for every successful xrp trace. -/
theorem c4_no_refetch (ledger : String → List CryptoHackTrack.Eth.Txn)
    (xledger : String → Except String (List CryptoHackTrack.Xrp.XTxn))
    (startT endT k : Nat) (origin : String) :
    (((CryptoHackTrack.Eth.trace_transactions ledger startT endT k
          origin).2.fetchLog).Nodup ∧
      ∀ x ∈ (CryptoHackTrack.Eth.trace_transactions ledger startT endT k
          origin).2.fetchLog,
        x ∈ (CryptoHackTrack.Eth.trace_transactions ledger startT endT k
          origin).2.traced) ∧
    ∀ res, CryptoHackTrack.Xrp.trace_transactions xledger startT endT k origin = .ok res →
      res.2.fetchLog.Nodup ∧ ∀ x ∈ res.2.fetchLog, x ∈ res.2.traced := by
  constructor
  · obtain ⟨_, _, _, _, hlog, hnd, _⟩ :=
      CryptoHackTrack.Eth.traceF_post ledger startT endT k (k + 2) origin 0
        ⟨[], [(origin, 0)], []⟩
    exact ⟨hnd List.nodup_nil (by intro x hx; exact absurd hx (List.not_mem_nil x)),
      hlog (by intro x hx; exact absurd hx (List.not_mem_nil x))⟩
  · intro res hres
    obtain ⟨_, _, hlog, hnd⟩ :=
      CryptoHackTrack.Xrp.traceF_xpost xledger startT endT k (k + 2) origin 0
        ⟨[], [(origin, 0)], []⟩ res hres
    exact ⟨hnd List.nodup_nil (by intro x hx; exact absurd hx (List.not_mem_nil x)),
      hlog (by intro x hx; exact absurd hx (List.not_mem_nil x))⟩

/-- C4 (witness): the no-re-expansion guarantee instantiated on the §8.7
eth scenario and on the zero-amount xrp ledger, whose trace succeeds with
fetch log `[A, B]`. -/
theorem c4_no_refetch_witness :
    (((CryptoHackTrack.Eth.trace_transactions CryptoHackTrack.Eth.scenarioLedger
          0 100 1 "A").2.fetchLog).Nodup ∧
      ∀ x ∈ (CryptoHackTrack.Eth.trace_transactions CryptoHackTrack.Eth.scenarioLedger
          0 100 1 "A").2.fetchLog,
        x ∈ (CryptoHackTrack.Eth.trace_transactions CryptoHackTrack.Eth.scenarioLedger
          0 100 1 "A").2.traced) ∧
    (CryptoHackTrack.Xrp.trace_transactions CryptoHackTrack.Xrp.xLedger 0 100 2 "A" =
      .ok ([CryptoHackTrack.Xrp.xtxnAB0],
        ⟨["B", "A"], [("B", 1), ("A", 0)], ["A", "B"]⟩)) ∧
    (["A", "B"] : List String).Nodup ∧
    ∀ x ∈ (["A", "B"] : List String), x ∈ (["B", "A"] : List String) :=
  ⟨(c4_no_refetch CryptoHackTrack.Eth.scenarioLedger CryptoHackTrack.Xrp.xLedger
      0 100 1 "A").1,
    by decide,
    ((c4_no_refetch CryptoHackTrack.Eth.scenarioLedger CryptoHackTrack.Xrp.xLedger
      0 100 2 "A").2 ([CryptoHackTrack.Xrp.xtxnAB0],
        ⟨["B", "A"], [("B", 1), ("A", 0)], ["A", "B"]⟩) (by decide) : _)⟩

namespace Eth

/-- The eth acceptance predicate, spelled out. -/
theorem txnAccepted_iff (startT endT : Nat) (t : Txn) :
    txnAccepted startT endT t = true ↔
      startT ≤ t.timeStamp ∧ t.timeStamp ≤ endT ∧ 0 < weiToEth t.value := by
  simp [txnAccepted, and_assoc]

end Eth

namespace Xrp

/-- The xrp acceptance predicate, spelled out: the window and nothing
else. -/
theorem dateAccepted_iff (startT endT : Nat) (t : XTxn) :
    txnAccepted startT endT t = true ↔ startT ≤ t.date ∧ t.date ≤ endT := by
  simp [txnAccepted]

end Xrp

/-- C5.  The claim asserts the fetch filter accepts a transaction iff it
is inside the window and has positive amount, so that a non-positive
amount can never appear in the accumulated list or the graph.  False for
`xrp_track.py`, whose filter checks only the window: the in-window
zero-amount transaction `A→B` is traced into the accumulated list and
becomes a weight-0 edge of the built graph. -/
theorem c5_counterexample :
    CryptoHackTrack.Xrp.txnAccepted 0 100 CryptoHackTrack.Xrp.xtxnAB0 = true ∧
    CryptoHackTrack.Xrp.xtxnAB0.amountValue = some 0 ∧
    CryptoHackTrack.Xrp.trace_transactions CryptoHackTrack.Xrp.xLedger 0 100 2 "A" =
      .ok ([CryptoHackTrack.Xrp.xtxnAB0],
        ⟨["B", "A"], [("B", 1), ("A", 0)], ["A", "B"]⟩) ∧
    (CryptoHackTrack.Xrp.build_graph [CryptoHackTrack.Xrp.xtxnAB0]
        [("B", 1), ("A", 0)]).map
      (fun gl => CryptoHackTrack.edgeWeight gl.1 "A" "B") = some (some 0) := by
  decide

/-- C5 (amended).  The eth filter accepts a fetched transaction iff
`window_start <= timeStamp <= window_end` and the converted amount is
positive, and consequently every transaction accumulated by an eth trace
satisfies both; the xrp filter however accepts iff the timestamp is in
the window only, with no positivity requirement (its page contents being
exactly the window-filtered fetch result). -/
theorem c5_amended :
    (∀ (ledger : String → List CryptoHackTrack.Eth.Txn) (startT endT : Nat)
        (acct : String) (t : CryptoHackTrack.Eth.Txn),
      t ∈ CryptoHackTrack.Eth.fetch_all_transactions ledger startT endT acct ↔
        t ∈ ledger acct ∧ startT ≤ t.timeStamp ∧ t.timeStamp ≤ endT ∧
          0 < CryptoHackTrack.Eth.weiToEth t.value) ∧
    (∀ (ledger : String → List CryptoHackTrack.Eth.Txn) (startT endT k : Nat)
        (origin : String) (t : CryptoHackTrack.Eth.Txn),
      t ∈ (CryptoHackTrack.Eth.trace_transactions ledger startT endT k origin).1 →
        startT ≤ t.timeStamp ∧ t.timeStamp ≤ endT ∧
          0 < CryptoHackTrack.Eth.weiToEth t.value) ∧
    (∀ (xledger : String → Except String (List CryptoHackTrack.Xrp.XTxn))
        (startT endT : Nat) (acct : String) (txns : List CryptoHackTrack.Xrp.XTxn)
        (t : CryptoHackTrack.Xrp.XTxn), xledger acct = .ok txns →
      CryptoHackTrack.Xrp.fetch_all_transactions xledger startT endT acct =
        .ok (txns.filter (CryptoHackTrack.Xrp.txnAccepted startT endT)) ∧
      (t ∈ txns.filter (CryptoHackTrack.Xrp.txnAccepted startT endT) ↔
        t ∈ txns ∧ startT ≤ t.date ∧ t.date ≤ endT)) := by
  refine ⟨?_, ?_, ?_⟩
  · intro ledger startT endT acct t
    rw [CryptoHackTrack.Eth.fetch_all_transactions, List.mem_filter,
      CryptoHackTrack.Eth.txnAccepted_iff]
  · intro ledger startT endT k origin t ht
    obtain ⟨_, _, _, _, _, _, hout⟩ :=
      CryptoHackTrack.Eth.traceF_post ledger startT endT k (k + 2) origin 0
        ⟨[], [(origin, 0)], []⟩
    obtain ⟨h1, _⟩ := hout t ht
    exact (CryptoHackTrack.Eth.txnAccepted_iff startT endT t).mp h1
  · intro xledger startT endT acct txns t hok
    refine ⟨?_, ?_⟩
    · rw [CryptoHackTrack.Xrp.fetch_all_transactions, hok]
    · rw [List.mem_filter, CryptoHackTrack.Xrp.dateAccepted_iff]

/-- C5 (witness): the amended filter characterisation instantiated on the
§8.7 eth scenario (transaction `A→B`) and on the zero-amount xrp
ledger. -/
theorem c5_amended_witness :
    (CryptoHackTrack.Eth.txnAB ∈ CryptoHackTrack.Eth.fetch_all_transactions
        CryptoHackTrack.Eth.scenarioLedger 0 100 "A" ↔
      CryptoHackTrack.Eth.txnAB ∈ CryptoHackTrack.Eth.scenarioLedger "A" ∧
        0 ≤ CryptoHackTrack.Eth.txnAB.timeStamp ∧
        CryptoHackTrack.Eth.txnAB.timeStamp ≤ 100 ∧
        0 < CryptoHackTrack.Eth.weiToEth CryptoHackTrack.Eth.txnAB.value) ∧
    (CryptoHackTrack.Eth.txnAB ∈
        (CryptoHackTrack.Eth.trace_transactions CryptoHackTrack.Eth.scenarioLedger
          0 100 1 "A").1 ∧
      0 ≤ CryptoHackTrack.Eth.txnAB.timeStamp ∧
        CryptoHackTrack.Eth.txnAB.timeStamp ≤ 100 ∧
        0 < CryptoHackTrack.Eth.weiToEth CryptoHackTrack.Eth.txnAB.value) ∧
    (CryptoHackTrack.Xrp.xLedger "A" = .ok [CryptoHackTrack.Xrp.xtxnAB0] ∧
      CryptoHackTrack.Xrp.fetch_all_transactions CryptoHackTrack.Xrp.xLedger 0 100 "A" =
        .ok ([CryptoHackTrack.Xrp.xtxnAB0].filter
          (CryptoHackTrack.Xrp.txnAccepted 0 100)) ∧
      (CryptoHackTrack.Xrp.xtxnAB0 ∈ [CryptoHackTrack.Xrp.xtxnAB0].filter
          (CryptoHackTrack.Xrp.txnAccepted 0 100) ↔
        CryptoHackTrack.Xrp.xtxnAB0 ∈ [CryptoHackTrack.Xrp.xtxnAB0] ∧
          0 ≤ CryptoHackTrack.Xrp.xtxnAB0.date ∧
          CryptoHackTrack.Xrp.xtxnAB0.date ≤ 100)) :=
  ⟨c5_amended.1 CryptoHackTrack.Eth.scenarioLedger 0 100 "A" CryptoHackTrack.Eth.txnAB,
    ⟨by decide, c5_amended.2.1 CryptoHackTrack.Eth.scenarioLedger 0 100 1 "A"
      CryptoHackTrack.Eth.txnAB (by decide)⟩,
    ⟨by decide, c5_amended.2.2 CryptoHackTrack.Xrp.xLedger 0 100 "A"
      [CryptoHackTrack.Xrp.xtxnAB0] CryptoHackTrack.Xrp.xtxnAB0 (by decide)⟩⟩

namespace Xrp

/-- An injected rate-limit response. -/
def r429 : Resp := ⟨429, ""⟩

/-- An injected gateway-timeout response. -/
def r504 : Resp := ⟨504, ""⟩

/-- Rate limits cost no attempt: after `n` injected 429s a success returns
the body having slept `n` times, whatever the attempt counter below the
cap. -/
theorem getTxLoop_rateLimit (retries : Nat) (body : String) (rest : List Resp) :
    ∀ n attempt rl bo, attempt < retries →
      getTxLoop retries (List.replicate n r429 ++ ⟨200, body⟩ :: rest) attempt rl bo =
        .ok body (rl + n) bo := by
  intro n
  induction n with
  | zero =>
    intro attempt rl bo h
    simp only [List.replicate_zero, List.nil_append, getTxLoop]
    rw [if_neg (by omega)]
    norm_num
  | succ m ih =>
    intro attempt rl bo h
    simp only [List.replicate_succ, List.cons_append, getTxLoop, List.append_eq]
    rw [if_neg (by omega)]
    rw [if_pos (by norm_num [r429])]
    rw [ih attempt (rl + 1) bo h]
    congr 1
    omega

/-- A run of 504s equal to the remaining attempts exhausts the cap: the
loop raises `Max retries exceeded` having backed off once per consumed
504, without touching any later response. -/
theorem getTxLoop_capExhausted (retries : Nat) (rest : List Resp) :
    ∀ k attempt rl bo, attempt + k = retries →
      getTxLoop retries (List.replicate k r504 ++ rest) attempt rl bo =
        .maxRetries rl (bo + k) := by
  intro k
  induction k with
  | zero =>
    intro attempt rl bo h
    cases rest with
    | nil =>
      simp only [List.replicate_zero, List.nil_append, getTxLoop]
      rw [if_pos (by omega)]
      norm_num
    | cons r rs =>
      simp only [List.replicate_zero, List.nil_append, getTxLoop]
      rw [if_pos (by omega)]
      norm_num
  | succ m ih =>
    intro attempt rl bo h
    simp only [List.replicate_succ, List.cons_append, getTxLoop, List.append_eq]
    rw [if_neg (by omega)]
    rw [if_neg (by norm_num [r504])]
    rw [if_neg (by norm_num [r504])]
    rw [if_pos (by norm_num [r504])]
    rw [ih (attempt + 1) rl (bo + 1) (by omega)]
    congr 1
    omega

/-- A success arriving while attempts remain below the cap is returned:
`m < retries` 504s followed by a 200 give the body with `m` backoffs. -/
theorem getTxLoop_capNotReached (retries : Nat) (body : String) (rest : List Resp) :
    ∀ m attempt rl bo, attempt + m < retries →
      getTxLoop retries (List.replicate m r504 ++ ⟨200, body⟩ :: rest) attempt rl bo =
        .ok body rl (bo + m) := by
  intro m
  induction m with
  | zero =>
    intro attempt rl bo h
    simp only [List.replicate_zero, List.nil_append, getTxLoop]
    rw [if_neg (by omega)]
    norm_num
  | succ m ih =>
    intro attempt rl bo h
    simp only [List.replicate_succ, List.cons_append, getTxLoop, List.append_eq]
    rw [if_neg (by omega)]
    rw [if_neg (by norm_num [r504])]
    rw [if_neg (by norm_num [r504])]
    rw [if_pos (by norm_num [r504])]
    rw [ih (attempt + 1) rl (bo + 1) (by omega)]
    congr 1
    omega

/-- An in-window transfer `A → B` of 5 drops. -/
def xokB : XTxn := ⟨"A", some "B", some 5, 50⟩

/-- An in-window transfer `A → C` of 3 drops. -/
def xokC : XTxn := ⟨"A", some "C", some 3, 50⟩

/-- A ledger oracle on which fetching `C` fails fatally (the page fetch
for `C` exhausts its retry cap), while `A` and `B` fetch fine. -/
def errLedger : String → Except String (List XTxn) := fun a =>
  if a = "A" then .ok [xokB, xokC]
  else if a = "B" then .ok []
  else if a = "C" then .error "Max retries exceeded"
  else .ok []

end Xrp

/-- C6.  The claim asserts that `get_transactions` retries 429 forever,
retries HTTP 504 up to the configured cap, and raises immediately on any
other failure.  False for `eth_track.py`, whose `get_transactions` has no
cap and no 504 handling at all: a single 504 raises immediately instead
of being retried. -/
theorem c6_counterexample :
    CryptoHackTrack.Eth.get_transactions [⟨504, ""⟩, ⟨200, "page"⟩] =
      .httpError 504 0 0 := by
  decide

/-- C6 (amended).  The xrp `get_transactions` retries a 429 indefinitely
(a success after `n` rate limits returns having slept exactly `n` times),
retries a 504 with backoff up to the `retries` cap — succeeding whenever
a success arrives after fewer than `retries` 504s, and raising the fatal
`Max retries exceeded` after exactly `retries` consecutive 504s — and
re-raises any other HTTP failure immediately; a fatal fetch error aborts
the whole xrp trace (nothing accumulated is returned), as on `errLedger`
where the second branch `C` fails after the `A→B` branch succeeded.  The
eth `get_transactions` likewise retries 429 indefinitely but designates
no transient error: it raises immediately on every non-429 failure. -/
theorem c6_amended :
    (∀ (retries n : Nat) (body : String) (rest : List CryptoHackTrack.Xrp.Resp),
      0 < retries →
      CryptoHackTrack.Xrp.get_transactions retries
          (List.replicate n CryptoHackTrack.Xrp.r429 ++ ⟨200, body⟩ :: rest) =
        .ok body n 0) ∧
    (∀ (retries : Nat) (rest : List CryptoHackTrack.Xrp.Resp),
      CryptoHackTrack.Xrp.get_transactions retries
          (List.replicate retries CryptoHackTrack.Xrp.r504 ++ rest) =
        .maxRetries 0 retries) ∧
    (∀ (retries m : Nat) (body : String) (rest : List CryptoHackTrack.Xrp.Resp),
      m < retries →
      CryptoHackTrack.Xrp.get_transactions retries
          (List.replicate m CryptoHackTrack.Xrp.r504 ++ ⟨200, body⟩ :: rest) =
        .ok body 0 m) ∧
    (∀ (retries status : Nat) (body : String) (rest : List CryptoHackTrack.Xrp.Resp),
      0 < retries → 400 ≤ status → status ≠ 429 → status ≠ 504 →
      CryptoHackTrack.Xrp.get_transactions retries (⟨status, body⟩ :: rest) =
        .httpError status 0 0) ∧
    (∀ (n : Nat) (body : String) (rest : List CryptoHackTrack.Xrp.Resp),
      CryptoHackTrack.Eth.get_transactions
          (List.replicate n CryptoHackTrack.Xrp.r429 ++ ⟨200, body⟩ :: rest) =
        .ok body n 0) ∧
    (∀ (status : Nat) (body : String) (rest : List CryptoHackTrack.Xrp.Resp),
      400 ≤ status → status ≠ 429 →
      CryptoHackTrack.Eth.get_transactions (⟨status, body⟩ :: rest) =
        .httpError status 0 0) ∧
    CryptoHackTrack.Xrp.trace_transactions CryptoHackTrack.Xrp.errLedger 0 100 2 "A" =
      .error "Max retries exceeded" := by
  refine ⟨?_, ?_, ?_, ?_, ?_, ?_, by decide⟩
  · intro retries n body rest h
    have := CryptoHackTrack.Xrp.getTxLoop_rateLimit retries body rest n 0 0 0 h
    simpa [CryptoHackTrack.Xrp.get_transactions] using this
  · intro retries rest
    have := CryptoHackTrack.Xrp.getTxLoop_capExhausted retries rest retries 0 0 0
      (by omega)
    simpa [CryptoHackTrack.Xrp.get_transactions] using this
  · intro retries m body rest h
    have := CryptoHackTrack.Xrp.getTxLoop_capNotReached retries body rest m 0 0 0
      (by omega)
    simpa [CryptoHackTrack.Xrp.get_transactions] using this
  · intro retries status body rest h0 h400 h429 h504
    rw [CryptoHackTrack.Xrp.get_transactions, CryptoHackTrack.Xrp.getTxLoop]
    dsimp only
    rw [if_neg (by omega)]
    rw [if_neg h429]
    rw [if_neg (by omega)]
    rw [if_neg h504]
  · intro n body rest
    have : ∀ m rl, CryptoHackTrack.Eth.getTxLoop
        (List.replicate m CryptoHackTrack.Xrp.r429 ++ ⟨200, body⟩ :: rest) rl =
        .ok body (rl + m) 0 := by
      intro m
      induction m with
      | zero =>
        intro rl
        simp only [List.replicate_zero, List.nil_append, CryptoHackTrack.Eth.getTxLoop]
        norm_num
      | succ m ih =>
        intro rl
        simp only [List.replicate_succ, List.cons_append, CryptoHackTrack.Eth.getTxLoop, List.append_eq]
        rw [if_pos (by norm_num [CryptoHackTrack.Xrp.r429])]
        rw [ih (rl + 1)]
        congr 1
        omega
    have h := this n 0
    simpa [CryptoHackTrack.Eth.get_transactions] using h
  · intro status body rest h400 h429
    rw [CryptoHackTrack.Eth.get_transactions, CryptoHackTrack.Eth.getTxLoop]
    dsimp only
    rw [if_neg h429]
    rw [if_neg (by omega)]

/-- C6 (witness): the amended retry contract instantiated at `retries = 5`
with three rate limits before success, two 504s before success, five 504s
exhausting the cap, and a 500 failing immediately on either client. -/
theorem c6_amended_witness :
    (CryptoHackTrack.Xrp.get_transactions 5
        (List.replicate 3 CryptoHackTrack.Xrp.r429 ++ ⟨200, "page"⟩ :: []) =
      .ok "page" 3 0) ∧
    (CryptoHackTrack.Xrp.get_transactions 5
        (List.replicate 5 CryptoHackTrack.Xrp.r504 ++ []) = .maxRetries 0 5) ∧
    (CryptoHackTrack.Xrp.get_transactions 5
        (List.replicate 2 CryptoHackTrack.Xrp.r504 ++ ⟨200, "page"⟩ :: []) =
      .ok "page" 0 2) ∧
    (CryptoHackTrack.Xrp.get_transactions 5 (⟨500, ""⟩ :: []) = .httpError 500 0 0) ∧
    (CryptoHackTrack.Eth.get_transactions
        (List.replicate 4 CryptoHackTrack.Xrp.r429 ++ ⟨200, "page"⟩ :: []) =
      .ok "page" 4 0) ∧
    (CryptoHackTrack.Eth.get_transactions (⟨500, ""⟩ :: []) = .httpError 500 0 0) :=
  ⟨c6_amended.1 5 3 "page" [] (by decide),
    c6_amended.2.1 5 [],
    c6_amended.2.2.1 5 2 "page" [] (by decide),
    c6_amended.2.2.2.1 5 500 "" [] (by decide) (by decide) (by decide) (by decide),
    c6_amended.2.2.2.2.1 4 "page" [],
    c6_amended.2.2.2.2.2.1 500 "" [] (by decide) (by decide)⟩

/-! ### Graph-builder lemmas -/

/-- Registering a node does not touch the edge history. -/
theorem addNode_edgeHist (G : Graph) (a : String) :
    (addNode G a).edgeHist = G.edgeHist := by
  unfold addNode
  split <;> rfl

/-- `add_edge` pushes exactly one entry onto the edge history. -/
theorem addEdge_edgeHist (G : Graph) (s d : String) (w : ℚ) :
    (addEdge G s d w).edgeHist = (s, d, w) :: G.edgeHist := by
  unfold addEdge
  dsimp only
  rw [addNode_edgeHist, addNode_edgeHist]

/-- A node of `addNode G a` was a node before or is `a`. -/
theorem addNode_mem {G : Graph} {a n : String} (h : n ∈ (addNode G a).nodes) :
    n ∈ G.nodes ∨ n = a := by
  unfold addNode at h
  split at h
  · exact Or.inl h
  · rcases List.mem_append.mp h with h' | h'
    · exact Or.inl h'
    · exact Or.inr (List.mem_singleton.mp h')

/-- The current weight only depends on the edge history. -/
theorem edgeWeight_congr {G G' : Graph} (h : G.edgeHist = G'.edgeHist)
    (s d : String) : edgeWeight G s d = edgeWeight G' s d := by
  unfold edgeWeight
  rw [h]

/-- Overwrite semantics of `add_edge`: the weight read back for `(s, d)`
after inserting `(s', d', w)` is `w` when the pairs coincide and the
previous weight otherwise. -/
theorem edgeWeight_addEdge (G : Graph) (s d s' d' : String) (w : ℚ) :
    edgeWeight (addEdge G s' d' w) s d =
      if s = s' ∧ d = d' then some w else edgeWeight G s d := by
  unfold edgeWeight
  rw [addEdge_edgeHist]
  by_cases h : s = s' ∧ d = d'
  · obtain ⟨rfl, rfl⟩ := h
    rw [if_pos ⟨rfl, rfl⟩]
    simp [List.find?]
  · rw [if_neg h]
    have hb : ((s == s') && (d == d')) = false := by
      by_cases hs : s = s'
      · by_cases hd : d = d'
        · exact absurd ⟨hs, hd⟩ h
        · simp [hd]
      · simp [hs]
    simp [List.find?, hb]

namespace Eth

/-- Anatomy of a successful `build_graph` iteration. -/
theorem buildStep_inv {acc acc' : Graph × Levels} {txn : Txn}
    (h : buildStep acc txn = some acc') :
    acc'.1.edgeHist = (txn.fromAcct, txn.toAcct, weiToEth txn.value) :: acc.1.edgeHist ∧
    acc'.1.nodes = (addNode (addNode acc.1 txn.fromAcct) txn.toAcct).nodes ∧
    acc'.2 = (if (acc.2.lookup txn.fromAcct).isSome then acc.2
      else (txn.fromAcct, 0) :: acc.2) := by
  unfold buildStep at h
  dsimp only at h
  set l1 := if (acc.2.lookup txn.fromAcct).isSome then acc.2
    else (txn.fromAcct, 0) :: acc.2 with hl1
  rcases hs : l1.lookup txn.fromAcct with _ | ls <;> rw [hs] at h
  · cases h
  · rcases hd : l1.lookup txn.toAcct with _ | ld <;> rw [hd] at h <;> dsimp only at h
    · cases h
    · cases h
      refine ⟨?_, rfl, rfl⟩
      exact addEdge_edgeHist acc.1 txn.fromAcct txn.toAcct (weiToEth txn.value)

/-- Fold characterisation of the recorded edge weight: after processing
`txns` the weight of `(s, d)` is the converted amount of the last matching
transaction, or whatever it was before when none matches. -/
theorem buildFold_edgeWeight :
    ∀ (txns : List Txn) (acc : Graph × Levels) (G : Graph) (levels2 : Levels),
      List.foldlM buildStep acc txns = some (G, levels2) → ∀ s d,
      edgeWeight G s d =
        match (txns.filter (fun t => t.fromAcct == s && t.toAcct == d)).getLast? with
        | some t => some (weiToEth t.value)
        | none => edgeWeight acc.1 s d := by
  intro txns
  induction txns with
  | nil =>
    intro acc G levels2 h s d
    rw [List.foldlM_nil] at h
    have hacc : acc = (G, levels2) := Option.some.inj h
    subst hacc
    simp [List.filter]
  | cons txn rest ih =>
    intro acc G levels2 h s d
    rw [List.foldlM_cons] at h
    cases hstep : buildStep acc txn with
    | none =>
      rw [hstep, Option.bind_eq_bind, Option.none_bind] at h
      exact Option.noConfusion h
    | some acc' =>
      rw [hstep, Option.bind_eq_bind, Option.some_bind] at h
      obtain ⟨hhist, _, _⟩ := buildStep_inv hstep
      have hw : edgeWeight acc'.1 s d =
          if s = txn.fromAcct ∧ d = txn.toAcct then some (weiToEth txn.value)
          else edgeWeight acc.1 s d := by
        have hcongr : edgeWeight acc'.1 s d =
            edgeWeight (addEdge acc.1 txn.fromAcct txn.toAcct (weiToEth txn.value)) s d :=
          edgeWeight_congr (by rw [hhist, addEdge_edgeHist]) s d
        rw [hcongr]
        exact edgeWeight_addEdge acc.1 s d txn.fromAcct txn.toAcct (weiToEth txn.value)
      by_cases hm : txn.fromAcct = s ∧ txn.toAcct = d
      · obtain ⟨rfl, rfl⟩ := hm
        rw [List.filter_cons_of_pos (by simp),
          ih acc' G levels2 h txn.fromAcct txn.toAcct]
        cases hl : rest.filter (fun t => t.fromAcct == txn.fromAcct &&
            t.toAcct == txn.toAcct) with
        | nil =>
          simp only [List.getLast?_nil, List.getLast?_singleton]
          rw [hw, if_pos ⟨rfl, rfl⟩]
        | cons u l2 =>
          rw [List.getLast?_cons_cons]
          cases hg : (u :: l2).getLast? with
          | none => simp at hg
          | some t => rfl
      · rw [List.filter_cons_of_neg (by
          simp only [Bool.and_eq_true, beq_iff_eq]
          intro hc
          exact hm hc),
          ih acc' G levels2 h s d]
        cases hl : (rest.filter (fun t => t.fromAcct == s && t.toAcct == d)).getLast? with
        | none =>
          dsimp only
          rw [hw, if_neg (fun hc => hm ⟨hc.1.symm, hc.2.symm⟩)]
        | some u => rfl

end Eth

namespace Eth

/-- Bindings present before a successful `build_graph` run are still
readable, with the same value, in the dict it returns. -/
theorem buildFold_preserve :
    ∀ (txns : List Txn) (acc : Graph × Levels) (G : Graph) (levels2 : Levels),
      List.foldlM buildStep acc txns = some (G, levels2) →
      ∀ a v, acc.2.lookup a = some v → levels2.lookup a = some v := by
  intro txns
  induction txns with
  | nil =>
    intro acc G levels2 h a v hv
    rw [List.foldlM_nil] at h
    have hacc : acc = (G, levels2) := Option.some.inj h
    subst hacc
    exact hv
  | cons txn rest ih =>
    intro acc G levels2 h a v hv
    rw [List.foldlM_cons] at h
    cases hstep : buildStep acc txn with
    | none =>
      rw [hstep, Option.bind_eq_bind, Option.none_bind] at h
      exact Option.noConfusion h
    | some acc' =>
      rw [hstep, Option.bind_eq_bind, Option.some_bind] at h
      obtain ⟨_, _, hlev⟩ := buildStep_inv hstep
      refine ih acc' G levels2 h a v ?_
      by_cases hsome : (acc.2.lookup txn.fromAcct).isSome
      · rw [hlev, if_pos hsome]
        exact hv
      · rw [hlev, if_neg hsome]
        have hne : a ≠ txn.fromAcct := by
          intro heq
          rw [← heq, hv] at hsome
          exact hsome rfl
        rw [lookup_cons_ne a txn.fromAcct 0 acc.2 hne]
        exact hv

/-- Every processed source ends up readable in the returned dict: with its
pre-existing level if it had one, with the default level `0` otherwise. -/
theorem buildFold_source :
    ∀ (txns : List Txn) (acc : Graph × Levels) (G : Graph) (levels2 : Levels),
      List.foldlM buildStep acc txns = some (G, levels2) →
      ∀ t ∈ txns, levels2.lookup t.fromAcct = some ((acc.2.lookup t.fromAcct).getD 0) := by
  intro txns
  induction txns with
  | nil =>
    intro acc G levels2 h t ht
    exact absurd ht (List.not_mem_nil t)
  | cons txn rest ih =>
    intro acc G levels2 h t ht
    rw [List.foldlM_cons] at h
    cases hstep : buildStep acc txn with
    | none =>
      rw [hstep, Option.bind_eq_bind, Option.none_bind] at h
      exact Option.noConfusion h
    | some acc' =>
      rw [hstep, Option.bind_eq_bind, Option.some_bind] at h
      obtain ⟨_, _, hlev⟩ := buildStep_inv hstep
      rcases List.mem_cons.mp ht with rfl | ht'
      · by_cases hsome : (acc.2.lookup t.fromAcct).isSome
        · rcases Option.isSome_iff_exists.mp hsome with ⟨v, hv⟩
          have hv' : acc'.2.lookup t.fromAcct = some v := by
            rw [hlev, if_pos hsome]
            exact hv
          rw [buildFold_preserve rest acc' G levels2 h t.fromAcct v hv', hv]
          rfl
        · have hv' : acc'.2.lookup t.fromAcct = some 0 := by
            rw [hlev, if_neg hsome]
            simp [List.lookup]
          rw [buildFold_preserve rest acc' G levels2 h t.fromAcct 0 hv',
            Option.not_isSome_iff_eq_none.mp hsome]
          rfl
      · rw [ih acc' G levels2 h t ht']
        by_cases hsome : (acc.2.lookup txn.fromAcct).isSome
        · rw [hlev, if_pos hsome]
        · rw [hlev, if_neg hsome]
          by_cases heq : t.fromAcct = txn.fromAcct
          · rw [heq]
            rw [Option.not_isSome_iff_eq_none.mp hsome]
            simp [List.lookup]
          · rw [lookup_cons_ne t.fromAcct txn.fromAcct 0 acc.2 heq]

/-- Totality of the builder: when every destination is levelled going in,
`build_graph` cannot raise, and every node of the graph it returns is
levelled in the dict it returns. -/
theorem buildFold_success :
    ∀ (txns : List Txn) (acc : Graph × Levels),
      (∀ t ∈ txns, (acc.2.lookup t.toAcct).isSome) →
      (∀ n ∈ acc.1.nodes, (acc.2.lookup n).isSome) →
      ∃ G levels2, List.foldlM buildStep acc txns = some (G, levels2) ∧
        ∀ n ∈ G.nodes, (levels2.lookup n).isSome := by
  intro txns
  induction txns with
  | nil =>
    intro acc hdest hnodes
    refine ⟨acc.1, acc.2, ?_, hnodes⟩
    rw [List.foldlM_nil]
    rfl
  | cons txn rest ih =>
    intro acc hdest hnodes
    set l1 := if (acc.2.lookup txn.fromAcct).isSome then acc.2
      else (txn.fromAcct, 0) :: acc.2 with hl1
    have hl1ext : ∀ b, (acc.2.lookup b).isSome → (l1.lookup b).isSome := by
      intro b hb
      by_cases hsome : (acc.2.lookup txn.fromAcct).isSome
      · rw [hl1, if_pos hsome]
        exact hb
      · rw [hl1, if_neg hsome]
        exact lookup_isSome_append [(txn.fromAcct, 0)] acc.2 b hb
    have hsrc : (l1.lookup txn.fromAcct).isSome := by
      by_cases hsome : (acc.2.lookup txn.fromAcct).isSome
      · rw [hl1, if_pos hsome]
        exact hsome
      · rw [hl1, if_neg hsome]
        simp [List.lookup]
    have hdst : (l1.lookup txn.toAcct).isSome :=
      hl1ext _ (hdest txn (List.mem_cons_self txn rest))
    rcases Option.isSome_iff_exists.mp hsrc with ⟨ls, hls⟩
    rcases Option.isSome_iff_exists.mp hdst with ⟨ld, hld⟩
    have hstep : buildStep acc txn = some
        ({ addEdge acc.1 txn.fromAcct txn.toAcct (weiToEth txn.value) with
            subsetHist := (txn.toAcct, ld) :: (txn.fromAcct, ls) ::
              (addEdge acc.1 txn.fromAcct txn.toAcct (weiToEth txn.value)).subsetHist },
          l1) := by
      unfold buildStep
      dsimp only
      rw [← hl1, hls, hld]
    obtain ⟨G, levels2, hfold, hGnodes⟩ := ih
      ({ addEdge acc.1 txn.fromAcct txn.toAcct (weiToEth txn.value) with
          subsetHist := (txn.toAcct, ld) :: (txn.fromAcct, ls) ::
            (addEdge acc.1 txn.fromAcct txn.toAcct (weiToEth txn.value)).subsetHist },
        l1)
      (fun t ht => hl1ext _ (hdest t (List.mem_cons_of_mem txn ht)))
      (by
        intro n hn
        have hn' : n ∈ (addNode (addNode acc.1 txn.fromAcct) txn.toAcct).nodes := hn
        rcases addNode_mem hn' with hn'' | rfl
        · rcases addNode_mem hn'' with hn3 | rfl
          · exact hl1ext _ (hnodes n hn3)
          · exact hsrc
        · exact hdst)
    refine ⟨G, levels2, ?_, hGnodes⟩
    rw [List.foldlM_cons, hstep, Option.bind_eq_bind, Option.some_bind]
    exact hfold

/-- `A → B`, 7 ETH, in-window (a second transaction on the same pair as
`txnAB`). -/
def txnAB7 : Txn := ⟨"t7", "A", "B", 7000000000000000000, 50⟩

/-- `X → B`, 2 ETH, in-window: its source `X` appears only as a source. -/
def txnXB : Txn := ⟨"t9", "X", "B", 2000000000000000000, 50⟩

end Eth

/-- C7.  `build_graph` overwrites, never sums: the weight the graph
records for an edge `s → d` is exactly the converted amount of the last
processed transaction with that (source, destination) pair — in
particular, for two accepted transactions on the same pair with different
amounts, the later one wins. -/
theorem c7_edge_overwrite (txns : List CryptoHackTrack.Eth.Txn)
    (levels : CryptoHackTrack.Levels) (G : CryptoHackTrack.Graph)
    (levels2 : CryptoHackTrack.Levels)
    (h : CryptoHackTrack.Eth.build_graph txns levels = some (G, levels2))
    (s d : String) :
    CryptoHackTrack.edgeWeight G s d =
      ((txns.filter (fun t => t.fromAcct == s && t.toAcct == d)).getLast?).map
        (fun t => CryptoHackTrack.Eth.weiToEth t.value) := by
  rw [CryptoHackTrack.Eth.buildFold_edgeWeight txns
    (CryptoHackTrack.Graph.empty, levels) G levels2 h s d]
  cases hl : (txns.filter (fun t => t.fromAcct == s && t.toAcct == d)).getLast? with
  | none => simp [CryptoHackTrack.edgeWeight, CryptoHackTrack.Graph.empty]
  | some t => rfl

/-- C7 (witness): building from the two accepted transactions `A→B` (5
ETH) then `A→B` (7 ETH), the edge `A→B` carries weight 7 — the amount of
the transaction processed last, not the sum 12. -/
theorem c7_edge_overwrite_witness :
    CryptoHackTrack.Eth.build_graph
        [CryptoHackTrack.Eth.txnAB, CryptoHackTrack.Eth.txnAB7] [("A", 0), ("B", 1)] =
      some (⟨[("A", "B", 7), ("A", "B", 5)], ["A", "B"],
          [("B", 1), ("A", 0), ("B", 1), ("A", 0)]⟩, [("A", 0), ("B", 1)]) ∧
    CryptoHackTrack.edgeWeight
        ⟨[("A", "B", 7), ("A", "B", 5)], ["A", "B"],
          [("B", 1), ("A", 0), ("B", 1), ("A", 0)]⟩ "A" "B" =
      ((([CryptoHackTrack.Eth.txnAB, CryptoHackTrack.Eth.txnAB7].filter
          (fun t => t.fromAcct == "A" && t.toAcct == "B")).getLast?).map
        (fun t => CryptoHackTrack.Eth.weiToEth t.value)) :=
  ⟨by decide,
    c7_edge_overwrite [CryptoHackTrack.Eth.txnAB, CryptoHackTrack.Eth.txnAB7]
      [("A", 0), ("B", 1)]
      ⟨[("A", "B", 7), ("A", "B", 5)], ["A", "B"],
        [("B", 1), ("A", 0), ("B", 1), ("A", 0)]⟩
      [("A", 0), ("B", 1)] (by decide) "A" "B"⟩

/-- C8.  For every transaction processed by a successful `build_graph`
run, the source ends up bound in the returned level dict: to its
pre-existing level when it had one, to the default `0` otherwise (the new
binding being visible to the caller in the returned dict), and every
pre-existing binding is still read back unchanged. -/
theorem c8_source_default (txns : List CryptoHackTrack.Eth.Txn)
    (levels : CryptoHackTrack.Levels) (G : CryptoHackTrack.Graph)
    (levels2 : CryptoHackTrack.Levels)
    (h : CryptoHackTrack.Eth.build_graph txns levels = some (G, levels2)) :
    (∀ t ∈ txns, levels2.lookup t.fromAcct =
      some ((levels.lookup t.fromAcct).getD 0)) ∧
    (∀ a v, levels.lookup a = some v → levels2.lookup a = some v) :=
  ⟨fun t ht => CryptoHackTrack.Eth.buildFold_source txns
      (CryptoHackTrack.Graph.empty, levels) G levels2 h t ht,
    fun a v hv => CryptoHackTrack.Eth.buildFold_preserve txns
      (CryptoHackTrack.Graph.empty, levels) G levels2 h a v hv⟩

/-- C8 (witness): building `A→B` then `X→B` over `{A: 0, B: 1}`: the
never-levelled source `X` is defaulted to 0 in the returned dict, while
`A` and `B` keep their levels. -/
theorem c8_source_default_witness :
    CryptoHackTrack.Eth.build_graph
        [CryptoHackTrack.Eth.txnAB, CryptoHackTrack.Eth.txnXB] [("A", 0), ("B", 1)] =
      some (⟨[("X", "B", 2), ("A", "B", 5)], ["A", "B", "X"],
          [("B", 1), ("X", 0), ("B", 1), ("A", 0)]⟩, [("X", 0), ("A", 0), ("B", 1)]) ∧
    (∀ t ∈ [CryptoHackTrack.Eth.txnAB, CryptoHackTrack.Eth.txnXB],
      ([("X", 0), ("A", 0), ("B", 1)] : CryptoHackTrack.Levels).lookup t.fromAcct =
        some ((([("A", 0), ("B", 1)] : CryptoHackTrack.Levels).lookup t.fromAcct).getD 0)) ∧
    (∀ a v, ([("A", 0), ("B", 1)] : CryptoHackTrack.Levels).lookup a = some v →
      ([("X", 0), ("A", 0), ("B", 1)] : CryptoHackTrack.Levels).lookup a = some v) :=
  ⟨by decide,
    (c8_source_default [CryptoHackTrack.Eth.txnAB, CryptoHackTrack.Eth.txnXB]
      [("A", 0), ("B", 1)]
      ⟨[("X", "B", 2), ("A", "B", 5)], ["A", "B", "X"],
        [("B", 1), ("X", 0), ("B", 1), ("A", 0)]⟩
      [("X", 0), ("A", 0), ("B", 1)] (by decide)).1,
    (c8_source_default [CryptoHackTrack.Eth.txnAB, CryptoHackTrack.Eth.txnXB]
      [("A", 0), ("B", 1)]
      ⟨[("X", "B", 2), ("A", "B", 5)], ["A", "B", "X"],
        [("B", 1), ("X", 0), ("B", 1), ("A", 0)]⟩
      [("X", 0), ("A", 0), ("B", 1)] (by decide)).2⟩

/-- C10.  Every transaction accumulated by an eth trace has its
destination levelled in the final `node_levels`, and consequently
`build_graph` on the trace output cannot raise: it returns a graph every
node of which is levelled in the dict it hands back, so the
`node_levels[...]` reads of `build_graph` and `visualize_graph` never
fail. -/
theorem c10_levels_total (ledger : String → List CryptoHackTrack.Eth.Txn)
    (startT endT k : Nat) (origin : String) :
    (∀ t ∈ (CryptoHackTrack.Eth.trace_transactions ledger startT endT k origin).1,
      (((CryptoHackTrack.Eth.trace_transactions ledger startT endT k
        origin).2.node_levels).lookup t.toAcct).isSome) ∧
    ∃ G levels2,
      CryptoHackTrack.Eth.build_graph
        (CryptoHackTrack.Eth.trace_transactions ledger startT endT k origin).1
        (CryptoHackTrack.Eth.trace_transactions ledger startT endT k
          origin).2.node_levels = some (G, levels2) ∧
      ∀ n ∈ G.nodes, (levels2.lookup n).isSome := by
  obtain ⟨_, _, _, _, _, _, hout⟩ :=
    CryptoHackTrack.Eth.traceF_post ledger startT endT k (k + 2) origin 0
      ⟨[], [(origin, 0)], []⟩
  constructor
  · intro t ht
    exact (hout t ht).2.2.2
  · exact CryptoHackTrack.Eth.buildFold_success
      (CryptoHackTrack.Eth.trace_transactions ledger startT endT k origin).1
      (CryptoHackTrack.Graph.empty,
        (CryptoHackTrack.Eth.trace_transactions ledger startT endT k origin).2.node_levels)
      (fun t ht => (hout t ht).2.2.2)
      (fun n hn => absurd hn (List.not_mem_nil n))

/-! ### Layout-pass lemmas -/

/-- In a pair list with duplicate-free keys, a key determines its value. -/
theorem keys_nodup_val_eq {α β : Type} {l : List (α × β)}
    (h : (l.map Prod.fst).Nodup) {k : α} {v1 v2 : β}
    (h1 : (k, v1) ∈ l) (h2 : (k, v2) ∈ l) : v1 = v2 := by
  induction l with
  | nil => exact absurd h1 (List.not_mem_nil _)
  | cons q l ih =>
    rw [List.map_cons] at h
    rcases List.nodup_cons.mp h with ⟨hq, hl⟩
    rcases List.mem_cons.mp h1 with h1h | h1t
    · rcases List.mem_cons.mp h2 with h2h | h2t
      · rw [← h1h] at h2h
        exact (Prod.mk.injEq k v1 k v2).mp h2h.symm |>.2
      · rw [← h1h] at hq
        exact absurd (List.mem_map_of_mem Prod.fst h2t) hq
    · rcases List.mem_cons.mp h2 with h2h | h2t
      · rw [← h2h] at hq
        exact absurd (List.mem_map_of_mem Prod.fst h1t) hq
      · exact ih hl h1t h2t

/-- A successful dict read exhibits a binding. -/
theorem lookup_mem {α β : Type} [BEq α] [LawfulBEq α] :
    ∀ {l : List (α × β)} {k : α} {v : β}, l.lookup k = some v → (k, v) ∈ l := by
  intro l
  induction l with
  | nil => intro k v h; exact Option.noConfusion h
  | cons q l ih =>
    intro k v h
    rcases q with ⟨a, b⟩
    simp only [List.lookup] at h
    cases hk : k == a <;> rw [hk] at h
    · exact List.mem_cons_of_mem _ (ih h)
    · have hkv : b = v := Option.some.inj h
      have hka : k = a := eq_of_beq hk
      rw [← hka, ← hkv]
      exact List.mem_cons_self _ _

/-- Reading a key other than the newest binding skips it (any value
type). -/
theorem lookup_cons_ne_of_ne {β : Type} (k a : String) (v : β)
    (l : List (String × β)) (h : k ≠ a) :
    (((a, v) :: l).lookup k) = l.lookup k := by
  simp only [List.lookup]
  cases hba : k == a
  · rfl
  · exact absurd (eq_of_beq hba) h

/-- The keys of `dictPairs` restrict the (duplicate-free) iteration-order
key list, so they are duplicate-free themselves. -/
theorem dictPairs_keys_nodup (m : Levels) : ((dictPairs m).map Prod.fst).Nodup := by
  have hsub : ∀ ks : List String,
      ((ks.filterMap (fun k => (m.lookup k).map (fun v => (k, v)))).map
        Prod.fst).Sublist ks := by
    intro ks
    induction ks with
    | nil => exact List.Sublist.refl []
    | cons k ks ih =>
      rw [List.filterMap_cons (fun k => Option.map (fun v => (k, v)) (List.lookup k m)) k ks]
      cases hk : m.lookup k with
      | none =>
        simp only [Option.map_none']
        exact List.Sublist.cons k ih
      | some v =>
        simp only [Option.map_some', List.map_cons]
        exact List.Sublist.cons₂ k ih
  have hkeys : (keysInOrder m).Nodup :=
    List.nodup_reverse.mpr (List.nodup_dedup (m.map Prod.fst))
  exact List.Nodup.sublist (hsub (keysInOrder m)) hkeys

/-- The key list of `addToGroups`: unchanged when the level already has a
bucket, extended at the end otherwise. -/
theorem addToGroups_keys :
    ∀ (gs : List (Nat × List String)) (lvl : Nat) (node : String),
      (addToGroups gs lvl node).map Prod.fst =
        if lvl ∈ gs.map Prod.fst then gs.map Prod.fst
        else gs.map Prod.fst ++ [lvl] := by
  intro gs
  induction gs with
  | nil =>
    intro lvl node
    simp [addToGroups]
  | cons g gs ih =>
    intro lvl node
    rcases g with ⟨l0, ns0⟩
    by_cases h0 : l0 = lvl
    · subst h0
      simp [addToGroups]
    · simp only [addToGroups, if_neg h0, List.map_cons]
      rw [ih lvl node]
      by_cases hmem : lvl ∈ gs.map Prod.fst
      · rw [if_pos hmem, if_pos (List.mem_cons_of_mem l0 hmem)]
      · rw [if_neg hmem, if_neg (by
          intro hc
          rcases List.mem_cons.mp hc with hc' | hc'
          · exact h0 hc'.symm
          · exact hmem hc'), List.cons_append]

/-- Where a bucket of `addToGroups` comes from, assuming duplicate-free
bucket keys: untouched other-level bucket, the extended bucket of the
level, or a fresh singleton bucket. -/
theorem addToGroups_mem :
    ∀ (gs : List (Nat × List String)) (lvl : Nat) (node : String) (l : Nat)
      (ns : List String),
      (gs.map Prod.fst).Nodup →
      (l, ns) ∈ addToGroups gs lvl node →
      ((l, ns) ∈ gs ∧ l ≠ lvl) ∨
      (∃ ns0, (l, ns0) ∈ gs ∧ l = lvl ∧ ns = ns0 ++ [node]) ∨
      (l = lvl ∧ lvl ∉ gs.map Prod.fst ∧ ns = [node]) := by
  intro gs
  induction gs with
  | nil =>
    intro lvl node l ns _ h
    rcases List.mem_singleton.mp h with h'
    have h1 : l = lvl := congrArg Prod.fst h'
    have h2 : ns = [node] := congrArg Prod.snd h'
    exact Or.inr (Or.inr ⟨h1, List.not_mem_nil lvl, h2⟩)
  | cons g gs ih =>
    intro lvl node l ns hnd h
    rcases g with ⟨l0, ns0⟩
    rw [List.map_cons] at hnd
    rcases List.nodup_cons.mp hnd with ⟨hl0, hnd'⟩
    by_cases h0 : l0 = lvl
    · subst h0
      rw [addToGroups, if_pos rfl] at h
      rcases List.mem_cons.mp h with hh | ht
      · have h1 : l = l0 := congrArg Prod.fst hh
        have h2 : ns = ns0 ++ [node] := congrArg Prod.snd hh
        rw [h1, h2]
        exact Or.inr (Or.inl ⟨ns0, List.mem_cons_self _ _, rfl, rfl⟩)
      · left
        refine ⟨List.mem_cons_of_mem _ ht, ?_⟩
        intro hc
        rw [hc] at ht
        exact hl0 (List.mem_map.mpr ⟨(l0, ns), ht, rfl⟩)
    · rw [addToGroups, if_neg h0] at h
      rcases List.mem_cons.mp h with hh | ht
      · have h1 : l = l0 := congrArg Prod.fst hh
        have h2 : ns = ns0 := congrArg Prod.snd hh
        rw [h1, h2]
        exact Or.inl ⟨List.mem_cons_self _ _, fun hc => h0 hc⟩
      · rcases ih lvl node l ns hnd' ht with h' | ⟨ns1, hns1, h1, h2⟩ | ⟨h1, h2, h3⟩
        · exact Or.inl ⟨List.mem_cons_of_mem _ h'.1, h'.2⟩
        · exact Or.inr (Or.inl ⟨ns1, List.mem_cons_of_mem _ hns1, h1, h2⟩)
        · refine Or.inr (Or.inr ⟨h1, ?_, h3⟩)
          intro hc
          rcases List.mem_cons.mp hc with hc' | hc'
          · exact h0 hc'.symm
          · exact h2 hc'

/-- Invariant of the grouping fold: starting from buckets whose members
all stem from the processed prefix, duplicate-free pair keys keep every
bucket duplicate-free, keep bucket keys duplicate-free, and every bucket
member `x` of bucket `l` stems from a pair `(x, l)`. -/
theorem groupsFold_inv :
    ∀ (suffix processed : List (String × Nat)) (gs : List (Nat × List String)),
      ((processed ++ suffix).map Prod.fst).Nodup →
      (gs.map Prod.fst).Nodup →
      (∀ l ns, (l, ns) ∈ gs → ns.Nodup ∧ ∀ x ∈ ns, (x, l) ∈ processed) →
      ((suffix.foldl (fun gs p => addToGroups gs p.2 p.1) gs).map Prod.fst).Nodup ∧
      ∀ l ns, (l, ns) ∈ suffix.foldl (fun gs p => addToGroups gs p.2 p.1) gs →
        ns.Nodup ∧ ∀ x ∈ ns, (x, l) ∈ processed ++ suffix := by
  intro suffix
  induction suffix with
  | nil =>
    intro processed gs hpn hgn hginv
    rw [List.foldl_nil]
    refine ⟨hgn, ?_⟩
    intro l ns h
    rcases hginv l ns h with ⟨h1, h2⟩
    refine ⟨h1, fun x hx => ?_⟩
    rw [List.append_nil]
    exact h2 x hx
  | cons p rest ih =>
    intro processed gs hpn hgn hginv
    rw [List.foldl_cons]
    rcases p with ⟨node, lvl⟩
    have hnodekey : node ∉ processed.map Prod.fst := by
      rw [List.map_append] at hpn
      intro hc
      exact (List.disjoint_of_nodup_append hpn) hc (by simp)
    have hgn' : ((addToGroups gs lvl node).map Prod.fst).Nodup := by
      rw [addToGroups_keys]
      by_cases hmem : lvl ∈ gs.map Prod.fst
      · rw [if_pos hmem]
        exact hgn
      · rw [if_neg hmem]
        refine List.Nodup.append hgn (List.nodup_singleton lvl) ?_
        intro y hy hy'
        rcases List.mem_singleton.mp hy' with rfl
        exact hmem hy
    have hginv' : ∀ l ns, (l, ns) ∈ addToGroups gs lvl node →
        ns.Nodup ∧ ∀ x ∈ ns, (x, l) ∈ processed ++ [(node, lvl)] := by
      intro l ns h
      rcases addToGroups_mem gs lvl node l ns hgn h with
        ⟨hmem, _⟩ | ⟨ns0, hns0, h1, h2⟩ | ⟨h1, _, h3⟩
      · rcases hginv l ns hmem with ⟨hn1, hn2⟩
        exact ⟨hn1, fun x hx => List.mem_append_left _ (hn2 x hx)⟩
      · rcases hginv l ns0 hns0 with ⟨hn1, hn2⟩
        have hnode : node ∉ ns0 := by
          intro hc
          exact hnodekey (List.mem_map_of_mem Prod.fst (hn2 node hc))
        refine ⟨?_, ?_⟩
        · rw [h2]
          refine List.Nodup.append hn1 (List.nodup_singleton node) ?_
          intro y hy hy'
          rcases List.mem_singleton.mp hy' with rfl
          exact hnode hy
        · intro x hx
          rw [h2] at hx
          rcases List.mem_append.mp hx with hx' | hx'
          · exact List.mem_append_left _ (hn2 x hx')
          · rcases List.mem_singleton.mp hx' with rfl
            rw [h1]
            exact List.mem_append_right _ (by simp)
      · refine ⟨by rw [h3]; exact List.nodup_singleton node, ?_⟩
        intro x hx
        rw [h3] at hx
        rcases List.mem_singleton.mp hx with rfl
        rw [h1]
        exact List.mem_append_right _ (by simp)
    have hpn' : (((processed ++ [(node, lvl)]) ++ rest).map Prod.fst).Nodup := by
      rw [List.append_assoc, List.singleton_append]
      exact hpn
    obtain ⟨hc1, hc2⟩ := ih (processed ++ [(node, lvl)]) (addToGroups gs lvl node)
      hpn' hgn' hginv'
    refine ⟨hc1, ?_⟩
    intro l ns h
    rcases hc2 l ns h with ⟨h1, h2⟩
    refine ⟨h1, fun x hx => ?_⟩
    have := h2 x hx
    rw [List.append_assoc, List.singleton_append] at this
    exact this

/-- The level grouping of `visualize_graph`: bucket keys are
duplicate-free, buckets are duplicate-free, and a node `x` sits in bucket
`l` only if `node_levels` iterates `(x, l)`. -/
theorem levelGroups_inv (m : Levels) :
    (((levelGroups m).map Prod.fst).Nodup) ∧
    ∀ l ns, (l, ns) ∈ levelGroups m →
      ns.Nodup ∧ ∀ x ∈ ns, (x, l) ∈ dictPairs m := by
  obtain ⟨h1, h2⟩ := groupsFold_inv (dictPairs m) [] []
    (by simpa using dictPairs_keys_nodup m) (by simp)
    (by intro l ns h; exact absurd h (List.not_mem_nil _))
  refine ⟨h1, ?_⟩
  intro l ns h
  rcases h2 l ns h with ⟨hn1, hn2⟩
  refine ⟨hn1, fun x hx => ?_⟩
  have := hn2 x hx
  rwa [List.nil_append] at this

/-- Keys added by the enumerate-and-place loop come from the enumerated
list. -/
theorem enumFold_keys (w : Nat × String → Int × Int) :
    ∀ (l : List (Nat × String)) (pos : Pos) (x : String),
      x ∈ placedKeys (l.foldl (fun p ia => (ia.2, w ia) :: p) pos) →
      x ∈ placedKeys pos ∨ ∃ ia ∈ l, x = ia.2 := by
  intro l
  induction l with
  | nil =>
    intro pos x h
    exact Or.inl h
  | cons ia l ih =>
    intro pos x h
    rw [List.foldl_cons] at h
    rcases ih ((ia.2, w ia) :: pos) x h with h' | ⟨ib, hib, rfl⟩
    · rcases List.mem_cons.mp h' with rfl | h''
      · exact Or.inr ⟨ia, List.mem_cons_self ia l, rfl⟩
      · exact Or.inl h''
    · exact Or.inr ⟨ib, List.mem_cons_of_mem ia hib, rfl⟩

/-- The enumerate-and-place loop does not disturb the position of a node
it never writes. -/
theorem enumFold_lookup (w : Nat × String → Int × Int) :
    ∀ (l : List (Nat × String)) (pos : Pos) (x : String),
      (∀ ia ∈ l, ia.2 ≠ x) →
      List.lookup x (l.foldl (fun p ia => (ia.2, w ia) :: p) pos) =
        List.lookup x pos := by
  intro l
  induction l with
  | nil =>
    intro pos x _
    rfl
  | cons ia l ih =>
    intro pos x h
    rw [List.foldl_cons,
      ih ((ia.2, w ia) :: pos) x (fun ib hib => h ib (List.mem_cons_of_mem ia hib))]
    exact lookup_cons_ne_of_ne x ia.2 (w ia) pos
      (fun he => h ia (List.mem_cons_self ia l) he.symm)

/-- The level-0 branch of the placement loop pins the bucket head at the
anchor. -/
theorem placeLevel_zero_cons (G : Graph) (pos : Pos) (n : String) (t : List String) :
    placeLevel G pos 0 (n :: t) = (n, ((0 : Int), (0 : Int))) :: pos := by
  unfold placeLevel
  rw [if_pos rfl]

/-- A key placed by one iteration of the placement loop was already placed
or is the head of a level-0 bucket or a member of a non-zero bucket. -/
theorem placeLevel_keys (G : Graph) (pos : Pos) (lvl : Nat) (ns : List String)
    (x : String) (h : x ∈ placedKeys (placeLevel G pos lvl ns)) :
    x ∈ placedKeys pos ∨ (lvl = 0 ∧ ∃ t, ns = x :: t) ∨ (lvl ≠ 0 ∧ x ∈ ns) := by
  unfold placeLevel at h
  by_cases h0 : lvl = 0
  · rw [if_pos h0] at h
    cases hns : ns with
    | nil =>
      rw [hns] at h
      exact Or.inl h
    | cons n t =>
      rw [hns] at h
      rcases List.mem_cons.mp h with rfl | h'
      · exact Or.inr (Or.inl ⟨h0, t, rfl⟩)
      · exact Or.inl h'
  · rw [if_neg h0] at h
    rcases enumFold_keys _ _ _ _ h with h' | ⟨ia, hia, rfl⟩
    · exact Or.inl h'
    · refine Or.inr (Or.inr ⟨h0, ?_⟩)
      have hmem : ia.2 ∈ (ns.insertionSort fun a b => inSum G b ≤ inSum G a) := by
        have hmap := List.enum_map_snd (ns.insertionSort fun a b => inSum G b ≤ inSum G a)
        rw [← hmap]
        exact List.mem_map_of_mem Prod.snd hia
      exact (List.perm_insertionSort (fun a b => inSum G b ≤ inSum G a) ns).mem_iff.mp hmem

/-- One iteration of the placement loop does not disturb the position of a
node outside its bucket. -/
theorem placeLevel_lookup (G : Graph) (pos : Pos) (lvl : Nat) (ns : List String)
    (x : String) (h : x ∉ ns) :
    List.lookup x (placeLevel G pos lvl ns) = List.lookup x pos := by
  unfold placeLevel
  by_cases h0 : lvl = 0
  · rw [if_pos h0]
    cases hns : ns with
    | nil => rfl
    | cons n t =>
      refine lookup_cons_ne_of_ne x n _ pos ?_
      intro he
      rw [hns] at h
      rw [he] at h
      exact h (List.mem_cons_self n t)
  · rw [if_neg h0]
    refine enumFold_lookup _ _ pos x ?_
    intro ia hia he
    refine h ?_
    rw [← he]
    have hmem : ia.2 ∈ (ns.insertionSort fun a b => inSum G b ≤ inSum G a) := by
      have hmap := List.enum_map_snd (ns.insertionSort fun a b => inSum G b ≤ inSum G a)
      rw [← hmap]
      exact List.mem_map_of_mem Prod.snd hia
    exact (List.perm_insertionSort (fun a b => inSum G b ≤ inSum G a) ns).mem_iff.mp hmem

/-- Keys placed by the whole placement pass trace back to a bucket. -/
theorem layoutFold_keys :
    ∀ (groups : List (Nat × List String)) (G : Graph) (pos : Pos) (x : String),
      x ∈ placedKeys (groups.foldl (fun pos g => placeLevel G pos g.1 g.2) pos) →
      x ∈ placedKeys pos ∨
        ∃ g ∈ groups, (g.1 = 0 ∧ ∃ t, g.2 = x :: t) ∨ (g.1 ≠ 0 ∧ x ∈ g.2) := by
  intro groups
  induction groups with
  | nil =>
    intro G pos x h
    exact Or.inl h
  | cons g groups ih =>
    intro G pos x h
    rw [List.foldl_cons] at h
    rcases ih G (placeLevel G pos g.1 g.2) x h with h' | ⟨g', hg', hcase⟩
    · rcases placeLevel_keys G pos g.1 g.2 x h' with h'' | hcase
      · exact Or.inl h''
      · exact Or.inr ⟨g, List.mem_cons_self g groups, hcase⟩
    · exact Or.inr ⟨g', List.mem_cons_of_mem g hg', hcase⟩

/-- The placement pass does not disturb the position of a node absent from
every bucket it still has to process. -/
theorem layoutFold_lookup :
    ∀ (groups : List (Nat × List String)) (G : Graph) (pos : Pos) (x : String),
      (∀ g ∈ groups, x ∉ g.2) →
      List.lookup x (groups.foldl (fun pos g => placeLevel G pos g.1 g.2) pos) =
        List.lookup x pos := by
  intro groups
  induction groups with
  | nil =>
    intro G pos x _
    rfl
  | cons g groups ih =>
    intro G pos x h
    rw [List.foldl_cons,
      ih G (placeLevel G pos g.1 g.2) x (fun g' hg' => h g' (List.mem_cons_of_mem g hg'))]
    exact placeLevel_lookup G pos g.1 g.2 x (h g (List.mem_cons_self g groups))

/-- A two-node graph with the single edge `X → B` (weight 1). -/
def gXB : Graph := addEdge Graph.empty "X" "B" 1

/-- A level dict with two level-0 nodes: `A` levelled 0, then `B` levelled
1, then `X` levelled 0 (as `build_graph` produces when defaulting the
source `X`). -/
def mTwoZero : Levels := [("X", 0), ("B", 1), ("A", 0)]

/-- C9.  The claim asserts every level-0 node is pinned at the `(0, 0)`
anchor before jitter, so none falls through to the random fallback.
False: `pos[nodes[0]] = (0, 0)` pins only the first node of the level-0
bucket; on `mTwoZero` the second level-0 node `X` is left unplaced and,
being a node of the graph, lands in the random-fallback set. -/
theorem c9_counterexample :
    CryptoHackTrack.mTwoZero.lookup "X" = some 0 ∧
    "X" ∉ CryptoHackTrack.placedKeys
      (CryptoHackTrack.layoutPos CryptoHackTrack.gXB CryptoHackTrack.mTwoZero) ∧
    "X" ∈ CryptoHackTrack.remainingNodes CryptoHackTrack.gXB
      (CryptoHackTrack.layoutPos CryptoHackTrack.gXB CryptoHackTrack.mTwoZero) := by
  decide

/-- C9 (amended).  Only the first node of the level-0 bucket (the first
level-0 key in `node_levels` iteration order) is pinned at the `(0, 0)`
anchor by the pre-jitter placement pass; every other level-0 node is left
unplaced by the pass and, when it is a node of the graph, falls through to
the uniformly random fallback placement. -/
theorem c9_amended (G : CryptoHackTrack.Graph) (m : CryptoHackTrack.Levels)
    (n : String) (rest : List String)
    (h : (CryptoHackTrack.levelGroups m).lookup 0 = some (n :: rest)) :
    (CryptoHackTrack.layoutPos G m).lookup n = some ((0 : Int), (0 : Int)) ∧
    ∀ x ∈ rest, x ∉ CryptoHackTrack.placedKeys (CryptoHackTrack.layoutPos G m) ∧
      (x ∈ G.nodes →
        x ∈ CryptoHackTrack.remainingNodes G (CryptoHackTrack.layoutPos G m)) := by
  obtain ⟨hkeys, hinv⟩ := CryptoHackTrack.levelGroups_inv m
  have hmem : ((0 : Nat), n :: rest) ∈ CryptoHackTrack.levelGroups m :=
    CryptoHackTrack.lookup_mem h
  obtain ⟨hns_nodup, hns_pairs⟩ := hinv 0 (n :: rest) hmem
  have hpairs_nodup := CryptoHackTrack.dictPairs_keys_nodup m
  have hbucket0 : ∀ g ∈ CryptoHackTrack.levelGroups m, ∀ x ∈ n :: rest,
      x ∈ g.2 → g.1 = 0 := by
    intro g hg x hx hxg
    obtain ⟨_, hg_pairs⟩ := hinv g.1 g.2 hg
    exact CryptoHackTrack.keys_nodup_val_eq hpairs_nodup (hg_pairs x hxg)
      (hns_pairs x hx)
  constructor
  · obtain ⟨pre, post, hsplit⟩ := List.append_of_mem hmem
    have hpost0 : (0 : Nat) ∉ post.map Prod.fst := by
      simp only [hsplit, List.map_append, List.map_cons] at hkeys
      rcases List.nodup_append.mp hkeys with ⟨_, hnd2, _⟩
      exact (List.nodup_cons.mp hnd2).1
    have hpostn : ∀ g ∈ post, n ∉ g.2 := by
      intro g hg hng
      have hgmem : g ∈ CryptoHackTrack.levelGroups m := by
        rw [hsplit]
        exact List.mem_append_right pre (List.mem_cons_of_mem _ hg)
      have hg1 : g.1 = 0 := hbucket0 g hgmem n (List.mem_cons_self n rest) hng
      refine hpost0 (List.mem_map.mpr ⟨g, hg, hg1⟩)
    have h1 : CryptoHackTrack.layoutPos G m =
        post.foldl (fun pos g => CryptoHackTrack.placeLevel G pos g.1 g.2)
          ((n, ((0 : Int), (0 : Int))) ::
            pre.foldl (fun pos g => CryptoHackTrack.placeLevel G pos g.1 g.2) []) := by
      unfold CryptoHackTrack.layoutPos
      rw [hsplit, List.foldl_append, List.foldl_cons]
      dsimp only
      rw [CryptoHackTrack.placeLevel_zero_cons]
    rw [h1, CryptoHackTrack.layoutFold_lookup post G _ n hpostn]
    simp [List.lookup]
  · intro x hx
    have hnotplaced : x ∉ CryptoHackTrack.placedKeys (CryptoHackTrack.layoutPos G m) := by
      intro hc
      rcases CryptoHackTrack.layoutFold_keys (CryptoHackTrack.levelGroups m) G [] x hc with
        hc' | ⟨g, hg, ⟨hg0, t, hgt⟩ | ⟨hgne, hgx⟩⟩
      · exact absurd hc' (List.not_mem_nil x)
      · have hgmem : ((0 : Nat), x :: t) ∈ CryptoHackTrack.levelGroups m := by
          rw [← hg0, ← hgt]
          exact hg
        have heq : x :: t = n :: rest :=
          CryptoHackTrack.keys_nodup_val_eq hkeys hgmem hmem
        have hxn : x = n := by
          injection heq
        rcases List.nodup_cons.mp hns_nodup with ⟨hnrest, _⟩
        rw [hxn] at hx
        exact hnrest hx
      · exact hgne (hbucket0 g hg x (List.mem_cons_of_mem n hx) hgx)
    refine ⟨hnotplaced, fun hxG => ?_⟩
    rw [CryptoHackTrack.remainingNodes, List.mem_filter]
    refine ⟨hxG, ?_⟩
    simp [hnotplaced]

/-- C9 (witness): the amended placement behaviour on `mTwoZero`, whose
level-0 bucket is `[A, X]`: `A` is pinned at the anchor while `X` is
unplaced and falls to the random fallback set of graph `gXB`. -/
theorem c9_amended_witness :
    (CryptoHackTrack.levelGroups CryptoHackTrack.mTwoZero).lookup 0 =
      some ("A" :: ["X"]) ∧
    ((CryptoHackTrack.layoutPos CryptoHackTrack.gXB
        CryptoHackTrack.mTwoZero).lookup "A" = some ((0 : Int), (0 : Int)) ∧
      ∀ x ∈ ["X"], x ∉ CryptoHackTrack.placedKeys
          (CryptoHackTrack.layoutPos CryptoHackTrack.gXB CryptoHackTrack.mTwoZero) ∧
        (x ∈ CryptoHackTrack.gXB.nodes →
          x ∈ CryptoHackTrack.remainingNodes CryptoHackTrack.gXB
            (CryptoHackTrack.layoutPos CryptoHackTrack.gXB CryptoHackTrack.mTwoZero))) :=
  ⟨by decide, c9_amended CryptoHackTrack.gXB CryptoHackTrack.mTwoZero "A" ["X"] (by decide)⟩

/-- C3 (witness): from a state in which `B` is already traced with level
7, a full trace of the scenario ledger leaves `B`'s level binding at 7. -/
theorem c3_amended_witness :
    "B" ∈ (⟨["B"], [("B", 7)], []⟩ : CryptoHackTrack.Eth.TraceState).traced ∧
    (CryptoHackTrack.Eth.traceF CryptoHackTrack.Eth.scenarioLedger 0 100 1 3 "A" 0
        ⟨["B"], [("B", 7)], []⟩).2.node_levels.lookup "B" =
      (⟨["B"], [("B", 7)], []⟩ : CryptoHackTrack.Eth.TraceState).node_levels.lookup "B" :=
  ⟨by decide, c3_amended CryptoHackTrack.Eth.scenarioLedger 0 100 1 3 0 "A" "B"
    ⟨["B"], [("B", 7)], []⟩ (by decide)⟩

end CryptoHackTrack
